import Mathlib

/-!
Verification development for the code-impact dependency-graph tool
(packages/code-impact/src). The JavaScript sources are embedded shallowly:

* JS strings are Lean `String`s, with the JS string operations re-implemented
  over their character lists (`String.data`) so that everything computes.
* JS objects used as string-keyed maps are association lists
  `List (String × _)` preserving key insertion order; property lookup is
  `List.lookup` (object keys are unique, so first-match lookup is faithful).
* Filesystem probes, path arithmetic and subprocesses are I/O; they are
  abstracted as explicit function parameters (`FsEnv`, spawn results),
  so every theorem quantifies over the environment's behaviour.
-/

/-! ## JS string primitives over character lists -/

def strOfChars (l : List Char) : String := String.mk l

/-- Model of the JS "String.prototype.startsWith" test. -/
def startsWithStr (s pre : String) : Bool := pre.data.isPrefixOf s.data

/-- Model of the JS "split" on a newline character. -/
def jsSplitNl (s : String) : List String := (s.data.splitOn '\n').map strOfChars

/-- Model of the JS "String.prototype.trim". -/
def jsTrim (s : String) : String :=
  strOfChars ((s.data.dropWhile Char.isWhitespace).reverse.dropWhile Char.isWhitespace).reverse

/-- Model of the JS "String.prototype.slice(n)" (drop the first n characters). -/
def jsDrop (s : String) (n : Nat) : String := strOfChars (s.data.drop n)

/-- Character count of a string (JS "length" for the BMP identifiers we model). -/
def strLen (s : String) : Nat := s.data.length

/-- Model of the JS lower-casing of a string, for ASCII identifiers. -/
def toLowerStr (s : String) : String := strOfChars (s.data.map Char.toLower)

/-- Model of the JS "String.prototype.slice(0, n)" (take the first n characters). -/
def jsTake (s : String) (n : Nat) : String := strOfChars (s.data.take n)

/-- Lexicographic order on character lists: code-point comparison, the model we
use for the id ordering produced by "localeCompare" on ASCII path ids. -/
def lexLe : List Char → List Char → Bool
  | [], _ => true
  | _ :: _, [] => false
  | a :: as, b :: bs => if a < b then true else if b < a then false else lexLe as bs

def strLe (a b : String) : Bool := lexLe a.data b.data

/-! ## Data model (graph.js, impact.js)

An edge is the record pushed by addEdge / deriveReverse:
JS objects with fields from, to, kind, dynamic. A reverse-adjacency entry in
an old snapshot may lack the "to" field; a missing or null string field is
modeled as the empty string "" (JS truthiness treats both alike, and every
real node id is non-empty). -/

structure Edge where
  «from» : String
  «to» : String
  kind : String
  dynamic : Bool
deriving DecidableEq, Repr

/-- Extension lists of graph.js (CODE_EXTS, STYLE_EXTS, ASSET_EXTS). -/
def STYLE_EXTS : List String := [".css", ".scss", ".less"]

def ASSET_EXTS : List String :=
  [".svg", ".png", ".jpg", ".jpeg", ".gif", ".webp", ".avif", ".mp4", ".json"]

def CODE_EXTS : List String := [".ts", ".tsx", ".js", ".jsx", ".mjs", ".cjs", ".vue"]

def DEFAULT_EXTS : List String := CODE_EXTS ++ STYLE_EXTS ++ ASSET_EXTS

/-- Model of Node's "path.extname" on a character list that is already the
basename: the extension starts at the last dot, except when that dot is the
first character (hidden files) or the basename is exactly "..". -/
def extnameChars (b : List Char) : List Char :=
  if b = ['.', '.'] then []
  else
    let tailLen := (b.reverse.takeWhile (fun c => c ≠ '.')).length
    if tailLen = b.length then []
    else if b.length - tailLen - 1 = 0 then []
    else b.drop (b.length - tailLen - 1)

/-- Model of Node's "path.extname" (basename = part after the last slash). -/
def extnameStr (p : String) : String :=
  strOfChars (extnameChars ((p.data.splitOn '/').getLastD []))

/-- detectNodeType from graph.js: pkg: prefix wins, then the (lower-cased)
extension classifies style / asset, default code. -/
def detectNodeType (filePath : String) : String :=
  if startsWithStr filePath "pkg:" then "pkg"
  else
    let ext := toLowerStr (extnameStr filePath)
    if STYLE_EXTS.contains ext then "style"
    else if ASSET_EXTS.contains ext then "asset"
    else "code"

/-- JS object update "obj[k].push(v)" with on-demand creation of obj[k]:
append v to the list at key k, creating the key at the end if absent. -/
def pushAssoc {α : Type} : List (String × List α) → String → α → List (String × List α)
  | [], k, v => [(k, [v])]
  | (k', l) :: rest, k, v =>
    if k' = k then (k', l ++ [v]) :: rest else (k', l) :: pushAssoc rest k v

/-- Reverse-adjacency derivation of traverseImpact (impact.js lines 32-39):
for every edge with truthy from and to, push a full edge record onto
the target's entry. A null list entry or a missing string field is modeled by "". -/
def deriveReverse (edges : List Edge) : List (String × List Edge) :=
  edges.foldl
    (fun acc e => if e.«to» = "" ∨ e.«from» = "" then acc else pushAssoc acc e.«to» e) []

/-! ## BFS core of traverseImpact (impact.js lines 41-64) -/

structure BfsState where
  visited : List (String × Nat)
  queue : List String
  edgeMap : List (String × Edge)

/-- Edge admission: "if (!includeDynamic && edge.dynamic) continue". -/
def allowedEdge (includeDynamic : Bool) (e : Edge) : Bool := includeDynamic || !e.dynamic

/-- Body of the "for (const edge of incoming)" loop of traverseImpact:
record the (from,to)-deduplicated edge, then discover the edge source at
distance curDepth+1 if it is unvisited. -/
def processEdges (includeDynamic : Bool) (current : String) (curDepth : Nat) :
    List Edge → BfsState → BfsState
  | [], st => st
  | e :: es, st =>
    if !includeDynamic && e.dynamic then processEdges includeDynamic current curDepth es st
    else
      let toV := if e.«to» = "" then current else e.«to»
      let key := e.«from» ++ "=>" ++ toV
      let em :=
        if (st.edgeMap.lookup key).isSome then st.edgeMap
        else st.edgeMap ++ [(key, ⟨e.«from», toV, e.kind, e.dynamic⟩)]
      let st' :=
        if (st.visited.lookup e.«from»).isSome then { st with edgeMap := em }
        else
          { visited := st.visited ++ [(e.«from», curDepth + 1)],
            queue := st.queue ++ [e.«from»], edgeMap := em }
      processEdges includeDynamic current curDepth es st'

/-- JS "reverse[current] || []". -/
def incomingOf (rev : List (String × List Edge)) (u : String) : List Edge :=
  (rev.lookup u).getD []

/-- All edge sources recorded anywhere in a reverse-adjacency object. -/
def allFroms (rev : List (String × List Edge)) : List String :=
  (rev.map (fun p => p.2.map (fun e => e.«from»))).flatten

/-- Number of potential BFS discoveries still unvisited. -/
def unvisitedCount (froms : List String) (visited : List (String × Nat)) : Nat :=
  (froms.dedup.filter (fun u => (visited.lookup u).isNone)).length

def bfsMeasure (froms : List String) (st : BfsState) : Nat :=
  unvisitedCount froms st.visited + st.queue.length

theorem lookup_append {β : Type} (k : String) (l₁ l₂ : List (String × β)) :
    (l₁ ++ l₂).lookup k = (l₁.lookup k).or (l₂.lookup k) := by
  induction l₁ with
  | nil => simp [List.lookup]
  | cons p rest ih =>
    rw [List.cons_append, List.lookup, List.lookup]
    by_cases hk : k == p.1
    · simp [hk]
    · simp [hk, ih]

theorem lookup_mem {β : Type} {k : String} {v : β} {l : List (String × β)}
    (h : l.lookup k = some v) : (k, v) ∈ l := by
  induction l with
  | nil => simp [List.lookup] at h
  | cons p rest ih =>
    rw [List.lookup] at h
    by_cases hk : k == p.1
    · simp [hk] at h
      simp at hk
      cases p
      simp_all
    · simp [hk] at h
      exact .tail _ (ih h)

theorem lookup_singleton {β : Type} (k u : String) (v : β) :
    ([(k, v)] : List (String × β)).lookup u = if u = k then some v else none := by
  by_cases h : u = k
  · simp [List.lookup, h]
  · have hb : (u == k) = false := by simp [h]
    simp [List.lookup, hb, h]

/-- Appending a fresh visited entry turns exactly one unvisited element of a
duplicate-free list into a visited one. -/
theorem filter_fresh_append {next : String} {v : Nat} {visited : List (String × Nat)}
    (hnone : visited.lookup next = none) :
    ∀ l : List String, l.Nodup → next ∈ l →
      (l.filter (fun u => ((visited ++ [(next, v)]).lookup u).isNone)).length + 1 =
        (l.filter (fun u => (visited.lookup u).isNone)).length := by
  have hlk : ∀ u, u ≠ next → (visited ++ [(next, v)]).lookup u = visited.lookup u := by
    intro u hu
    rw [lookup_append, lookup_singleton]
    simp only [if_neg hu]
    cases visited.lookup u <;> simp
  have hnexts : (visited ++ [(next, v)]).lookup next = some v := by
    rw [lookup_append, lookup_singleton, hnone]
    simp
  intro l
  induction l with
  | nil => simp
  | cons a l' ih =>
    intro hnd hmem
    rcases List.mem_cons.mp hmem with h | h
    · have ha : a = next := h.symm
      subst ha
      have hnl : a ∉ l' := (List.nodup_cons.mp hnd).1
      have heq : l'.filter (fun u => ((visited ++ [(a, v)]).lookup u).isNone) =
          l'.filter (fun u => (visited.lookup u).isNone) :=
        List.filter_congr (fun u hu => by rw [hlk u (fun hc => hnl (hc ▸ hu))])
      simp only [List.filter_cons, hnexts, hnone]
      simp [heq]
    · have hnd' : l'.Nodup := (List.nodup_cons.mp hnd).2
      have hane : a ≠ next := fun hc => (List.nodup_cons.mp hnd).1 (hc ▸ h)
      have ih' := ih hnd' h
      rw [List.filter_cons, List.filter_cons, hlk a hane]
      by_cases hav : ((visited.lookup a).isNone) = true
      · rw [if_pos hav, if_pos hav]
        simp only [List.length_cons]
        omega
      · rw [if_neg hav, if_neg hav]
        exact ih'

theorem unvisited_fresh (froms : List String) {next : String} {v : Nat}
    {visited : List (String × Nat)} (hmem : next ∈ froms)
    (hnone : visited.lookup next = none) :
    unvisitedCount froms (visited ++ [(next, v)]) + 1 = unvisitedCount froms visited := by
  unfold unvisitedCount
  exact filter_fresh_append hnone froms.dedup froms.nodup_dedup (List.mem_dedup.mpr hmem)

/-- processEdges never increases the BFS measure: every discovery moves one
element from the unvisited pool into the queue. -/
theorem processEdges_measure (froms : List String) (includeDynamic : Bool)
    (current : String) (curDepth : Nat) :
    ∀ (es : List Edge) (st : BfsState), (∀ e ∈ es, e.«from» ∈ froms) →
      bfsMeasure froms (processEdges includeDynamic current curDepth es st) ≤
        bfsMeasure froms st := by
  intro es
  induction es with
  | nil => intro st _; simp [processEdges]
  | cons e es' ih =>
    intro st hmem
    have hmem' : ∀ e' ∈ es', e'.«from» ∈ froms := fun e' h => hmem e' (List.mem_cons_of_mem _ h)
    rw [processEdges]
    by_cases hdyn : (!includeDynamic && e.dynamic) = true
    · simp only [hdyn, if_pos rfl]
      exact ih st hmem'
    · simp only [hdyn]
      simp only [Bool.false_eq_true, if_false]
      by_cases hvis : (st.visited.lookup e.«from»).isSome
      · simp only [hvis, if_pos rfl]
        refine le_trans (ih _ hmem') ?_
        simp [bfsMeasure, unvisitedCount]
      · simp only [hvis]
        simp only [Bool.false_eq_true, if_false]
        refine le_trans (ih _ hmem') ?_
        have hnone : st.visited.lookup e.«from» = none := by
          cases h : st.visited.lookup e.«from» with
          | none => rfl
          | some w => rw [h] at hvis; simp at hvis
        have hfresh := unvisited_fresh froms (v := curDepth + 1)
          (hmem e (List.mem_cons_self _ _)) hnone
        simp only [bfsMeasure]
        simp only [List.length_append, List.length_cons, List.length_nil]
        omega

theorem mem_allFroms {rev : List (String × List Edge)} {u : String} {e : Edge}
    (h : e ∈ incomingOf rev u) : e.«from» ∈ allFroms rev := by
  unfold incomingOf at h
  cases hl : rev.lookup u with
  | none => rw [hl] at h; simp at h
  | some l =>
    rw [hl] at h
    simp at h
    have hmem : (u, l) ∈ rev := lookup_mem hl
    unfold allFroms
    rw [List.mem_flatten]
    refine ⟨l.map (fun e => e.«from»), ?_, ?_⟩
    · exact List.mem_map.mpr ⟨(u, l), hmem, rfl⟩
    · exact List.mem_map.mpr ⟨e, h, rfl⟩

/-- The BFS while-loop of traverseImpact (impact.js lines 46-64). -/
def bfsLoop (rev : List (String × List Edge)) (includeDynamic : Bool) (depth : ℕ∞)
    (st : BfsState) : BfsState :=
  match h : st.queue with
  | [] => st
  | current :: rest =>
    let curDepth := (st.visited.lookup current).getD 0
    if (curDepth : ℕ∞) ≥ depth then
      bfsLoop rev includeDynamic depth { st with queue := rest }
    else
      bfsLoop rev includeDynamic depth
        (processEdges includeDynamic current curDepth (incomingOf rev current)
          { st with queue := rest })
termination_by bfsMeasure (allFroms rev) st
decreasing_by
  · simp only [bfsMeasure, h]
    simp only [List.length_cons]
    omega
  · refine lt_of_le_of_lt (processEdges_measure _ _ _ _ _ _ (fun e he => mem_allFroms he)) ?_
    simp only [bfsMeasure, h]
    simp only [List.length_cons]
    omega

/-! ## Reverse reachability and minimal BFS distance -/

/-- A reverse-edge path of the given length from some start node to the
target, using only edges admitted by the includeDynamic option: step n means
n reverse-edge hops from a seed. -/
inductive ReachN (rev : List (String × List Edge)) (includeDynamic : Bool)
    (seeds : List String) : Nat → String → Prop where
  | seed : ∀ s, s ∈ seeds → ReachN rev includeDynamic seeds 0 s
  | step : ∀ n u e, ReachN rev includeDynamic seeds n u → e ∈ incomingOf rev u →
      allowedEdge includeDynamic e = true → ReachN rev includeDynamic seeds (n + 1) e.«from»

/-- n is the minimal number of admitted reverse-edge hops from any seed. -/
def IsMinDist (rev : List (String × List Edge)) (includeDynamic : Bool)
    (seeds : List String) (n : Nat) (v : String) : Prop :=
  ReachN rev includeDynamic seeds n v ∧ ∀ m, m < n → ¬ ReachN rev includeDynamic seeds m v

theorem exists_isMinDist {rev inc seeds} {n : Nat} {v : String}
    (h : ReachN rev inc seeds n v) : ∃ m ≤ n, IsMinDist rev inc seeds m v := by
  induction n using Nat.strong_induction_on with
  | _ n ih =>
    by_cases hmin : ∀ m, m < n → ¬ ReachN rev inc seeds m v
    · exact ⟨n, le_refl n, h, hmin⟩
    · push_neg at hmin
      obtain ⟨m, hm, hr⟩ := hmin
      obtain ⟨m', hm', hmin'⟩ := ih m hm hr
      exact ⟨m', le_trans hm' (le_of_lt hm), hmin'⟩

theorem isMinDist_unique {rev inc seeds} {n m : Nat} {v : String}
    (h1 : IsMinDist rev inc seeds n v) (h2 : IsMinDist rev inc seeds m v) : n = m := by
  rcases lt_trichotomy n m with h | h | h
  · exact absurd h1.1 (h2.2 n h)
  · exact h
  · exact absurd h2.1 (h1.2 m h)

/-- Paths that avoid dynamic edges are also paths of the unrestricted
traversal (allowedEdge true is constantly true). -/
theorem reachN_mono {rev seeds} {n : Nat} {v : String}
    (h : ReachN rev false seeds n v) : ReachN rev true seeds n v := by
  induction h with
  | seed s hs => exact .seed s hs
  | step n u e _ he _ ih => exact .step n u e ih he rfl

/-! ## BFS loop invariant -/

/-- Every distance recorded by the traversal is the minimal admitted
reverse-edge distance from the seed set and respects the depth bound. -/
def Sound (rev : List (String × List Edge)) (inc : Bool) (seeds : List String)
    (depth : ℕ∞) (visited : List (String × Nat)) : Prop :=
  ∀ v n, visited.lookup v = some n →
    IsMinDist rev inc seeds n v ∧ (n : ℕ∞) ≤ depth

/-- Every dequeued-and-expanded node (visited, no longer queued, below the
depth bound) already has all its admitted reverse-edge sources discovered at
distance at most one more than its own. -/
def Closed (rev : List (String × List Edge)) (inc : Bool) (depth : ℕ∞)
    (visited : List (String × Nat)) (queue : List String) : Prop :=
  ∀ u k, visited.lookup u = some k → u ∉ queue → (k : ℕ∞) < depth →
    ∀ e ∈ incomingOf rev u, allowedEdge inc e = true →
      ∃ j ≤ k + 1, visited.lookup e.«from» = some j

/-- The queue always holds (remaining nodes of) one BFS level followed by
the partially discovered next level. -/
def QueueLevels (visited : List (String × Nat)) (queue : List String) : Prop :=
  ∃ d A B, queue = A ++ B ∧ (∀ a ∈ A, visited.lookup a = some d) ∧
    (∀ b ∈ B, visited.lookup b = some (d + 1))

def Seeded (seeds : List String) (visited : List (String × Nat)) : Prop :=
  ∀ s ∈ seeds, visited.lookup s = some 0

structure BfsInv (rev : List (String × List Edge)) (inc : Bool) (seeds : List String)
    (depth : ℕ∞) (st : BfsState) : Prop where
  sound : Sound rev inc seeds depth st.visited
  closed : Closed rev inc depth st.visited st.queue
  levels : QueueLevels st.visited st.queue
  nodupKeys : (st.visited.map (fun p => p.1)).Nodup
  seeded : Seeded seeds st.visited
  qmem : ∀ x ∈ st.queue, (st.visited.lookup x).isSome

/-- Completeness up to a frontier bound K: if every visited node strictly
below K has already been expanded, then every node whose minimal distance is
at most K has been discovered. -/
theorem complete_below {rev : List (String × List Edge)} {inc : Bool}
    {seeds : List String} {depth : ℕ∞} {visited : List (String × Nat)}
    {queue : List String} (K : ℕ∞)
    (hs : Sound rev inc seeds depth visited)
    (hc : Closed rev inc depth visited queue)
    (hsee : Seeded seeds visited)
    (hq : ∀ u j, visited.lookup u = some j → (j : ℕ∞) < K → u ∉ queue)
    (hK : K ≤ depth) :
    ∀ m v, IsMinDist rev inc seeds m v → (m : ℕ∞) ≤ K → (visited.lookup v).isSome := by
  intro m
  induction m using Nat.strong_induction_on with
  | _ m ih =>
    intro v hmin hle
    cases m with
    | zero =>
      cases hmin.1 with
      | seed s hs' => rw [hsee v hs']; simp
    | succ m' =>
      cases hmin.1 with
      | step n u e hu he hae =>
        obtain ⟨mu, hmu_le, hmu⟩ := exists_isMinDist hu
        have hmu_lt : mu < m' + 1 := Nat.lt_succ_of_le hmu_le
        have hmu_cast : (mu : ℕ∞) < K := by
          calc (mu : ℕ∞) < ((m' + 1 : ℕ) : ℕ∞) := by exact_mod_cast hmu_lt
          _ ≤ K := hle
        have humem := ih mu hmu_lt u hmu (le_of_lt hmu_cast)
        obtain ⟨j, hj⟩ := Option.isSome_iff_exists.mp humem
        have hjmin := (hs u j hj).1
        have hjeq : j = mu := isMinDist_unique hjmin hmu
        subst hjeq
        have hnotq : u ∉ queue := hq u j hj (by exact_mod_cast hmu_cast)
        have hjd : (j : ℕ∞) < depth := lt_of_lt_of_le (by exact_mod_cast hmu_cast) hK
        obtain ⟨j', _, hj'⟩ := hc u j hj hnotq hjd e he hae
        rw [hj']
        simp

theorem lookup_append_left {β : Type} {l₁ l₂ : List (String × β)} {k : String} {v : β}
    (h : l₁.lookup k = some v) : (l₁ ++ l₂).lookup k = some v := by
  rw [lookup_append, h]
  rfl

theorem lookup_append_right {β : Type} {l₁ l₂ : List (String × β)} {k : String}
    (h : l₁.lookup k = none) : (l₁ ++ l₂).lookup k = l₂.lookup k := by
  rw [lookup_append, h]
  cases l₂.lookup k <;> rfl

theorem lookup_cons_self {β : Type} {k : String} {v : β} {l : List (String × β)} :
    ((k, v) :: l).lookup k = some v := by
  simp [List.lookup]

theorem skip_allowed (inc b : Bool) (h : ¬ ((!inc && b) = true)) : (inc || !b) = true := by
  cases inc <;> cases b <;> simp_all

theorem skip_not_allowed (inc b : Bool) (h : (!inc && b) = true) : (inc || !b) = false := by
  cases inc <;> cases b <;> simp_all

/-- Full behavioural specification of the inner edge loop: it appends some
block of fresh discoveries (all at distance curDepth+1, each an admitted edge
source, none previously visited, pairwise distinct) to visited and to the
queue, and afterwards every admitted edge source of the list is visited, at
its old distance or at curDepth+1. -/
theorem processEdges_spec (inc : Bool) (current : String) (k : Nat) :
    ∀ (es : List Edge) (st : BfsState),
      ∃ Δ : List (String × Nat),
        (processEdges inc current k es st).visited = st.visited ++ Δ ∧
        (processEdges inc current k es st).queue = st.queue ++ Δ.map (fun p => p.1) ∧
        (∀ p ∈ Δ, p.2 = k + 1 ∧ st.visited.lookup p.1 = none ∧
          ∃ e ∈ es, allowedEdge inc e = true ∧ e.«from» = p.1) ∧
        (Δ.map (fun p => p.1)).Nodup ∧
        (∀ e ∈ es, allowedEdge inc e = true →
          ∃ j, (st.visited ++ Δ).lookup e.«from» = some j ∧
            (st.visited.lookup e.«from» = some j ∨ j = k + 1)) := by
  intro es
  induction es with
  | nil =>
    intro st
    exact ⟨[], by simp [processEdges], by simp [processEdges], by simp, by simp, by simp⟩
  | cons e es' ih =>
    intro st
    by_cases hdyn : (!inc && e.dynamic) = true
    · obtain ⟨Δ, hv, hq, hp, hnd, hcov⟩ := ih st
      have hskip : processEdges inc current k (e :: es') st = processEdges inc current k es' st := by
        simp [processEdges, hdyn]
      refine ⟨Δ, by rw [hskip]; exact hv, by rw [hskip]; exact hq, ?_, hnd, ?_⟩
      · intro p hpmem
        obtain ⟨h1, h2, e', he', h3, h4⟩ := hp p hpmem
        exact ⟨h1, h2, e', List.mem_cons_of_mem _ he', h3, h4⟩
      · intro e'' hmem hall
        rcases List.mem_cons.mp hmem with heq | hmem'
        · subst heq
          rw [show allowedEdge inc e'' = false from skip_not_allowed inc e''.dynamic hdyn] at hall
          exact absurd hall (by simp)
        · exact hcov e'' hmem' hall
    · have hall_e : allowedEdge inc e = true := skip_allowed inc e.dynamic hdyn
      by_cases hvis : (st.visited.lookup e.«from»).isSome = true
      · obtain ⟨j₀, hj₀⟩ := Option.isSome_iff_exists.mp hvis
        have hstep : ∀ em, processEdges inc current k (e :: es') st =
            processEdges inc current k es' { st with edgeMap := em } → True := fun _ _ => trivial
        -- unfold one layer
        have hun : processEdges inc current k (e :: es') st =
            processEdges inc current k es'
              { st with edgeMap :=
                if (st.edgeMap.lookup (e.«from» ++ "=>" ++ (if e.«to» = "" then current else e.«to»))).isSome
                then st.edgeMap
                else st.edgeMap ++ [(e.«from» ++ "=>" ++ (if e.«to» = "" then current else e.«to»),
                  ⟨e.«from», if e.«to» = "" then current else e.«to», e.kind, e.dynamic⟩)] } := by
          simp [processEdges, hdyn, hvis]
        obtain ⟨Δ, hv, hq, hp, hnd, hcov⟩ := ih
          { st with edgeMap :=
            if (st.edgeMap.lookup (e.«from» ++ "=>" ++ (if e.«to» = "" then current else e.«to»))).isSome
            then st.edgeMap
            else st.edgeMap ++ [(e.«from» ++ "=>" ++ (if e.«to» = "" then current else e.«to»),
              ⟨e.«from», if e.«to» = "" then current else e.«to», e.kind, e.dynamic⟩)] }
        refine ⟨Δ, by rw [hun]; exact hv, by rw [hun]; exact hq, ?_, hnd, ?_⟩
        · intro p hpmem
          obtain ⟨h1, h2, e', he', h3, h4⟩ := hp p hpmem
          exact ⟨h1, h2, e', List.mem_cons_of_mem _ he', h3, h4⟩
        · intro e'' hmem hall
          rcases List.mem_cons.mp hmem with heq | hmem'
          · subst heq
            exact ⟨j₀, lookup_append_left hj₀, Or.inl hj₀⟩
          · exact hcov e'' hmem' hall
      · have hnone : st.visited.lookup e.«from» = none := by
          cases h : st.visited.lookup e.«from» with
          | none => rfl
          | some w => rw [h] at hvis; simp at hvis
        have hun : processEdges inc current k (e :: es') st =
            processEdges inc current k es'
              { visited := st.visited ++ [(e.«from», k + 1)],
                queue := st.queue ++ [e.«from»],
                edgeMap :=
                  if (st.edgeMap.lookup (e.«from» ++ "=>" ++ (if e.«to» = "" then current else e.«to»))).isSome
                  then st.edgeMap
                  else st.edgeMap ++ [(e.«from» ++ "=>" ++ (if e.«to» = "" then current else e.«to»),
                    ⟨e.«from», if e.«to» = "" then current else e.«to», e.kind, e.dynamic⟩)] } := by
          simp [processEdges, hdyn, hvis]
        obtain ⟨Δ', hv, hq, hp, hnd, hcov⟩ := ih
          { visited := st.visited ++ [(e.«from», k + 1)],
            queue := st.queue ++ [e.«from»],
            edgeMap :=
              if (st.edgeMap.lookup (e.«from» ++ "=>" ++ (if e.«to» = "" then current else e.«to»))).isSome
              then st.edgeMap
              else st.edgeMap ++ [(e.«from» ++ "=>" ++ (if e.«to» = "" then current else e.«to»),
                ⟨e.«from», if e.«to» = "" then current else e.«to», e.kind, e.dynamic⟩)] }
        have hlkw : (st.visited ++ [(e.«from», k + 1)]).lookup e.«from» = some (k + 1) := by
          rw [lookup_append_right hnone, lookup_cons_self]
        refine ⟨(e.«from», k + 1) :: Δ', ?_, ?_, ?_, ?_, ?_⟩
        · rw [hun, hv]
          simp
        · rw [hun, hq]
          simp
        · intro p hpmem
          rcases List.mem_cons.mp hpmem with heq | hmem'
          · subst heq
            exact ⟨rfl, hnone, e, List.mem_cons_self _ _, hall_e, rfl⟩
          · obtain ⟨h1, h2, e', he', h3, h4⟩ := hp p hmem'
            have h2' : st.visited.lookup p.1 = none := by
              have := lookup_append (β := Nat) p.1 st.visited [(e.«from», k + 1)]
              rw [h2] at this
              cases hlk : st.visited.lookup p.1 with
              | none => rfl
              | some w =>
                rw [hlk] at this
                simp at this
            exact ⟨h1, h2', e', List.mem_cons_of_mem _ he', h3, h4⟩
        · simp only [List.map_cons]
          rw [List.nodup_cons]
          constructor
          · intro hcontra
            obtain ⟨p, hpmem, hpeq⟩ := List.mem_map.mp hcontra
            obtain ⟨_, h2, _⟩ := hp p hpmem
            rw [hpeq] at h2
            rw [hlkw] at h2
            simp at h2
          · exact hnd
        · intro e'' hmem hall
          have hsame : st.visited ++ ((e.«from», k + 1) :: Δ') =
              (st.visited ++ [(e.«from», k + 1)]) ++ Δ' := by simp
          rcases List.mem_cons.mp hmem with heq | hmem'
          · subst heq
            refine ⟨k + 1, ?_, Or.inr rfl⟩
            rw [hsame]
            exact lookup_append_left hlkw
          · obtain ⟨j, hj1, hj2⟩ := hcov e'' hmem' hall
            refine ⟨j, by rw [hsame]; exact hj1, ?_⟩
            rcases hj2 with hj2 | hj2
            · -- visited in st.visited ++ [(w, k+1)]
              have := lookup_append (β := Nat) e''.«from» st.visited [(e.«from», k + 1)]
              rw [hj2] at this
              cases hlk : st.visited.lookup e''.«from» with
              | none =>
                rw [hlk] at this
                simp only [Option.none_or] at this
                rw [lookup_singleton] at this
                by_cases hw : e''.«from» = e.«from»
                · rw [if_pos hw] at this
                  right
                  cases this
                  rfl
                · rw [if_neg hw] at this
                  simp at this
              | some w =>
                rw [hlk] at this
                simp only [Option.or] at this
                left
                exact this.symm
            · exact Or.inr hj2

theorem mem_keys_isSome {β : Type} {l : List (String × β)} {k : String}
    (h : k ∈ l.map (fun p => p.1)) : (l.lookup k).isSome := by
  induction l with
  | nil => simp at h
  | cons p rest ih =>
    rw [List.map_cons] at h
    rcases List.mem_cons.mp h with heq | hmem
    · subst heq
      rw [List.lookup]
      simp
    · rw [List.lookup]
      by_cases hk : (k == p.1) = true
      · rw [hk]
        simp
      · rw [show (k == p.1) = false from by simp_all]
        exact ih hmem

theorem lookup_none_not_keys {β : Type} {l : List (String × β)} {k : String}
    (h : l.lookup k = none) : k ∉ l.map (fun p => p.1) := by
  intro hmem
  have := mem_keys_isSome hmem
  rw [h] at this
  simp at this

theorem lookup_all_const {Δ : List (String × Nat)} {c : Nat} {w : String}
    (hall : ∀ p ∈ Δ, p.2 = c) (hmem : w ∈ Δ.map (fun p => p.1)) :
    Δ.lookup w = some c := by
  induction Δ with
  | nil => simp at hmem
  | cons p rest ih =>
    rw [List.map_cons] at hmem
    rw [List.lookup]
    rcases List.mem_cons.mp hmem with heq | hmem'
    · subst heq
      rw [show (p.1 == p.1) = true from by simp]
      rw [hall p (List.mem_cons_self _ _)]
    · by_cases hk : (w == p.1) = true
      · rw [hk]
        rw [hall p (List.mem_cons_self _ _)]
      · rw [show (w == p.1) = false from by simp_all]
        exact ih (fun q hq => hall q (List.mem_cons_of_mem _ hq)) hmem'

/-- Preservation of the loop invariant when a node at the depth bound is
dequeued without expansion. -/
theorem bfsInv_skip {rev : List (String × List Edge)} {inc : Bool} {seeds : List String}
    {depth : ℕ∞} {st : BfsState} {current : String} {rest : List String}
    (hq : st.queue = current :: rest)
    (hguard : ((((st.visited.lookup current).getD 0 : Nat)) : ℕ∞) ≥ depth)
    (hinv : BfsInv rev inc seeds depth st) :
    BfsInv rev inc seeds depth { st with queue := rest } := by
  have hcur : current ∈ st.queue := by rw [hq]; exact List.mem_cons_self _ _
  obtain ⟨kc, hkc⟩ := Option.isSome_iff_exists.mp (hinv.qmem current hcur)
  have hkc_ge : (kc : ℕ∞) ≥ depth := by rw [hkc] at hguard; exact hguard
  refine ⟨hinv.sound, ?_, ?_, hinv.nodupKeys, hinv.seeded, ?_⟩
  · -- Closed
    intro u k hu hnot hlt einc hein hall
    by_cases hu_cur : u = current
    · subst hu_cur
      rw [hu] at hkc
      cases hkc
      exact absurd hlt (not_lt_of_ge hkc_ge)
    · have hnotq : u ∉ st.queue := by
        rw [hq]
        intro hmem
        rcases List.mem_cons.mp hmem with heq | hmem'
        · exact hu_cur heq
        · exact hnot hmem'
      exact hinv.closed u k hu hnotq hlt einc hein hall
  · -- QueueLevels
    obtain ⟨d, A, B, hAB, hA, hB⟩ := hinv.levels
    rw [hq] at hAB
    cases A with
    | nil =>
      simp at hAB
      refine ⟨d + 1, rest, [], by simp, ?_, by simp⟩
      intro a ha
      exact hB a (by rw [← hAB]; exact List.mem_cons_of_mem _ ha)
    | cons a A' =>
      rw [List.cons_append] at hAB
      injection hAB with hhead htail
      refine ⟨d, A', B, ?_, ?_, hB⟩
      · show rest = A' ++ B
        exact htail
      intro x hx
      exact hA x (List.mem_cons_of_mem _ hx)
  · -- qmem
    intro x hx
    exact hinv.qmem x (by rw [hq]; exact List.mem_cons_of_mem _ hx)

/-- Preservation of the loop invariant when the head of the queue is expanded:
all its admitted incoming-edge sources are discovered at one more than its
distance, and the invariant carries over. -/
theorem bfsInv_expand {rev : List (String × List Edge)} {inc : Bool} {seeds : List String}
    {depth : ℕ∞} {st : BfsState} {current : String} {rest : List String}
    (hq : st.queue = current :: rest)
    (hguard : ¬ (((((st.visited.lookup current).getD 0 : Nat)) : ℕ∞) ≥ depth))
    (hinv : BfsInv rev inc seeds depth st) :
    BfsInv rev inc seeds depth
      (processEdges inc current ((st.visited.lookup current).getD 0) (incomingOf rev current)
        { st with queue := rest }) := by
  have hcur : current ∈ st.queue := by rw [hq]; exact List.mem_cons_self _ _
  obtain ⟨k₀, hk₀⟩ := Option.isSome_iff_exists.mp (hinv.qmem current hcur)
  rw [hk₀]
  simp only [Option.getD_some]
  rw [hk₀] at hguard
  simp only [Option.getD_some] at hguard
  have hk_lt : (k₀ : ℕ∞) < depth := lt_of_not_ge hguard
  have hcurmin : IsMinDist rev inc seeds k₀ current := (hinv.sound current k₀ hk₀).1
  -- every node visited strictly below the current level is no longer queued
  have hq' : ∀ u j, st.visited.lookup u = some j → (j : ℕ∞) < (k₀ : ℕ∞) → u ∉ st.queue := by
    intro u j hu hj humem
    obtain ⟨d, A, B, hAB, hA, hB⟩ := hinv.levels
    have hjlt : j < k₀ := by exact_mod_cast hj
    have hABq : current :: rest = A ++ B := by rw [← hq, hAB]
    rw [hAB] at humem
    cases A with
    | nil =>
      simp at hABq
      have hcurB : current ∈ B := by rw [← hABq]; exact List.mem_cons_self _ _
      have h1 : st.visited.lookup current = some (d + 1) := hB current hcurB
      rw [hk₀] at h1
      cases h1
      simp at humem
      have h2 := hB u humem
      rw [hu] at h2
      cases h2
      omega
    | cons a A' =>
      rw [List.cons_append] at hABq
      injection hABq with hhead _
      have hkd : st.visited.lookup a = some d := hA a (List.mem_cons_self _ _)
      rw [← hhead, hk₀] at hkd
      cases hkd
      rcases List.mem_append.mp humem with hmem | hmem
      · have h2 := hA u hmem
        rw [hu] at h2
        cases h2
        omega
      · have h2 := hB u hmem
        rw [hu] at h2
        cases h2
        omega
  have hcompl := complete_below (K := (k₀ : ℕ∞)) hinv.sound hinv.closed hinv.seeded hq'
    (le_of_lt hk_lt)
  obtain ⟨Δ, hv, hqq, hp, hnd, hcov⟩ :=
    processEdges_spec inc current k₀ (incomingOf rev current) { st with queue := rest }
  have hvv : (processEdges inc current k₀ (incomingOf rev current)
      { st with queue := rest }).visited = st.visited ++ Δ := hv
  have hqv : (processEdges inc current k₀ (incomingOf rev current)
      { st with queue := rest }).queue = rest ++ Δ.map (fun p => p.1) := hqq
  have hpΔ : ∀ p ∈ Δ, p.2 = k₀ + 1 ∧ st.visited.lookup p.1 = none ∧
      ∃ e ∈ incomingOf rev current, allowedEdge inc e = true ∧ e.«from» = p.1 := hp
  have hcovΔ : ∀ e ∈ incomingOf rev current, allowedEdge inc e = true →
      ∃ j, (st.visited ++ Δ).lookup e.«from» = some j ∧
        (st.visited.lookup e.«from» = some j ∨ j = k₀ + 1) := hcov
  -- distance soundness of the new discoveries
  have hnew_min : ∀ p ∈ Δ, IsMinDist rev inc seeds (k₀ + 1) p.1 := by
    intro p hpmem
    obtain ⟨_, hnone, e, hein, hall, heq⟩ := hpΔ p hpmem
    constructor
    · rw [← heq]
      exact ReachN.step k₀ current e hcurmin.1 hein hall
    · intro m hm hr
      obtain ⟨m', hm'le, hm'⟩ := exists_isMinDist hr
      have : (st.visited.lookup p.1).isSome := by
        apply hcompl m' p.1 hm'
        have : m' ≤ k₀ := by omega
        exact_mod_cast this
      rw [hnone] at this
      simp at this
    
  have hd_succ : ((k₀ + 1 : Nat) : ℕ∞) ≤ depth := by
    push_cast
    exact Order.add_one_le_of_lt hk_lt
  have hΔlookup : ∀ w ∈ Δ.map (fun p => p.1),
      (st.visited ++ Δ).lookup w = some (k₀ + 1) := by
    intro w hw
    have hnone : st.visited.lookup w = none := by
      obtain ⟨p, hpmem, hpeq⟩ := List.mem_map.mp hw
      rw [← hpeq]
      exact (hpΔ p hpmem).2.1
    rw [lookup_append_right hnone]
    exact lookup_all_const (fun p hp' => (hpΔ p hp').1) hw
  refine ⟨?_, ?_, ?_, ?_, ?_, ?_⟩
  · -- Sound
    rw [hvv]
    intro v n hn
    cases hpre : st.visited.lookup v with
    | some n' =>
      have := @lookup_append_left _ _ Δ _ _ hpre
      rw [this] at hn
      cases hn
      exact hinv.sound v _ hpre
    | none =>
      rw [lookup_append_right hpre] at hn
      have hmemΔ : (v, n) ∈ Δ := lookup_mem hn
      have := hnew_min (v, n) hmemΔ
      have hn_eq : n = k₀ + 1 := (hpΔ (v, n) hmemΔ).1
      subst hn_eq
      exact ⟨this, hd_succ⟩
  · -- Closed
    rw [hvv, hqv]
    intro u j hu hnot hlt einc hein hall
    by_cases hu_cur : u = current
    · subst hu_cur
      have hju : (st.visited ++ Δ).lookup u = some k₀ := lookup_append_left hk₀
      rw [hju] at hu
      cases hu
      obtain ⟨j', hj', hj'or⟩ := hcovΔ einc hein hall
      refine ⟨j', ?_, hj'⟩
      rcases hj'or with hj'pre | hj'new
      · -- previously visited: its minimal distance cannot exceed k₀+1
        have hmin' := (hinv.sound einc.«from» j' hj'pre).1
        have hreach : ReachN rev inc seeds (k₀ + 1) einc.«from» :=
          ReachN.step k₀ u einc hcurmin.1 hein hall
        by_contra hcon
        push_neg at hcon
        exact hmin'.2 (k₀ + 1) hcon hreach
      · omega
    · have hurest : u ∉ rest := fun hmem => hnot (List.mem_append.mpr (Or.inl hmem))
      have hukeys : u ∉ Δ.map (fun p => p.1) := fun hmem =>
        hnot (List.mem_append.mpr (Or.inr hmem))
      have hupre : st.visited.lookup u = some j := by
        cases hpre : st.visited.lookup u with
        | some j' =>
          have := @lookup_append_left _ _ Δ _ _ hpre
          rw [this] at hu
          cases hu
          rfl
        | none =>
          rw [lookup_append_right hpre] at hu
          exact absurd (List.mem_map.mpr ⟨(u, j), lookup_mem hu, rfl⟩) hukeys
      have hnotq : u ∉ st.queue := by
        rw [hq]
        intro hmem
        rcases List.mem_cons.mp hmem with heq | hmem'
        · exact hu_cur heq
        · exact hurest hmem'
      obtain ⟨j', hj'le, hj'⟩ := hinv.closed u j hupre hnotq hlt einc hein hall
      exact ⟨j', hj'le, lookup_append_left hj'⟩
  · -- QueueLevels
    rw [hvv, hqv]
    obtain ⟨d, A, B, hAB, hA, hB⟩ := hinv.levels
    rw [hq] at hAB
    cases A with
    | nil =>
      simp at hAB
      have hcurB : current ∈ B := by rw [← hAB]; exact List.mem_cons_self _ _
      have hkd : st.visited.lookup current = some (d + 1) := hB current hcurB
      rw [hk₀] at hkd
      cases hkd
      refine ⟨d + 1, rest, Δ.map (fun p => p.1), rfl, ?_, ?_⟩
      · intro a ha
        have : a ∈ B := by rw [← hAB]; exact List.mem_cons_of_mem _ ha
        exact lookup_append_left (hB a this)
      · intro b hb
        exact hΔlookup b hb
    | cons a A' =>
      rw [List.cons_append] at hAB
      injection hAB with hhead htail
      have hkd : st.visited.lookup a = some d := hA a (List.mem_cons_self _ _)
      rw [← hhead, hk₀] at hkd
      injection hkd with hdk
      refine ⟨d, A', B ++ Δ.map (fun p => p.1), by rw [htail, List.append_assoc], ?_, ?_⟩
      · intro x hx
        exact lookup_append_left (hA x (List.mem_cons_of_mem _ hx))
      · intro b hb
        rcases List.mem_append.mp hb with hmem | hmem
        · exact lookup_append_left (hB b hmem)
        · rw [← hdk]
          exact hΔlookup b hmem
  · -- Nodup keys
    rw [hvv]
    rw [List.map_append, List.nodup_append]
    refine ⟨hinv.nodupKeys, hnd, ?_⟩
    intro x hx hx'
    obtain ⟨p, hpmem, hpeq⟩ := List.mem_map.mp hx'
    have hnone : st.visited.lookup p.1 = none := (hpΔ p hpmem).2.1
    rw [hpeq] at hnone
    exact (lookup_none_not_keys hnone) hx
  · -- Seeded
    rw [hvv]
    intro s hs
    exact lookup_append_left (hinv.seeded s hs)
  · -- qmem
    rw [hvv, hqv]
    intro x hx
    rcases List.mem_append.mp hx with hmem | hmem
    · have : x ∈ st.queue := by rw [hq]; exact List.mem_cons_of_mem _ hmem
      obtain ⟨vx, hvx⟩ := Option.isSome_iff_exists.mp (hinv.qmem x this)
      rw [lookup_append_left hvx]
      simp
    · rw [hΔlookup x hmem]
      simp

/-- The BFS maintains its invariant to the end and drains the queue. -/
theorem bfsLoop_inv (rev : List (String × List Edge)) (inc : Bool) (seeds : List String)
    (depth : ℕ∞) (st : BfsState) :
    BfsInv rev inc seeds depth st →
    BfsInv rev inc seeds depth (bfsLoop rev inc depth st) ∧
      (bfsLoop rev inc depth st).queue = [] := by
  induction st using bfsLoop.induct rev inc depth with
  | case1 st hq =>
    intro hinv
    have hstep : bfsLoop rev inc depth st = st := by
      rw [bfsLoop]
      split
      · rfl
      · rename_i current' rest' heq
        rw [hq] at heq
        cases heq
    rw [hstep]
    exact ⟨hinv, hq⟩
  | case2 st current rest hq curDepth hguard ih =>
    intro hinv
    have hstep : bfsLoop rev inc depth st =
        bfsLoop rev inc depth { st with queue := rest } := by
      conv_lhs => rw [bfsLoop]
      split
      · rename_i heq
        rw [hq] at heq
        cases heq
      · rename_i current' rest' heq
        rw [hq] at heq
        injection heq with h1 h2
        subst h1
        subst h2
        rw [if_pos hguard]
    rw [hstep]
    exact ih (bfsInv_skip hq hguard hinv)
  | case3 st current rest hq curDepth hguard ih =>
    intro hinv
    have hstep : bfsLoop rev inc depth st =
        bfsLoop rev inc depth
          (processEdges inc current ((st.visited.lookup current).getD 0)
            (incomingOf rev current) { st with queue := rest }) := by
      conv_lhs => rw [bfsLoop]
      split
      · rename_i heq
        rw [hq] at heq
        cases heq
      · rename_i current' rest' heq
        rw [hq] at heq
        injection heq with h1 h2
        subst h1
        subst h2
        rw [if_neg hguard]
    rw [hstep]
    exact ih (bfsInv_expand hq hguard hinv)

/-- Characterization of the visited map at the end of the BFS: a node carries
distance n exactly when n is its minimal admitted reverse-edge distance and n
respects the depth bound. -/
theorem bfs_final_char (rev : List (String × List Edge)) (inc : Bool) (seeds : List String)
    (depth : ℕ∞) (st : BfsState) (hinv : BfsInv rev inc seeds depth st) :
    ∀ v n, (bfsLoop rev inc depth st).visited.lookup v = some n ↔
      (IsMinDist rev inc seeds n v ∧ (n : ℕ∞) ≤ depth) := by
  obtain ⟨hfin, hqnil⟩ := bfsLoop_inv rev inc seeds depth st hinv
  intro v n
  constructor
  · intro h
    exact hfin.sound v n h
  · rintro ⟨hmin, hle⟩
    have hq0 : ∀ u j, (bfsLoop rev inc depth st).visited.lookup u = some j →
        (j : ℕ∞) < depth → u ∉ (bfsLoop rev inc depth st).queue := by
      intro u j _ _
      rw [hqnil]
      simp
    have hsome := complete_below depth hfin.sound hfin.closed hfin.seeded hq0
      (le_refl depth) n v hmin hle
    obtain ⟨j, hj⟩ := Option.isSome_iff_exists.mp hsome
    have hjmin := (hfin.sound v j hj).1
    rw [isMinDist_unique hmin hjmin]
    exact hj

/-! ## Result ordering and sorting (impact.js line 71) -/

structure ResultEntry where
  id : String
  distance : Nat
  type : String
deriving DecidableEq, Repr

/-- Comparator of the final sort: distance ascending, then id ascending. -/
def resLeB (a b : ResultEntry) : Bool :=
  decide (a.distance < b.distance) ||
    (decide (a.distance = b.distance) && strLe a.id b.id)

theorem lexLe_total : ∀ a b : List Char, lexLe a b = true ∨ lexLe b a = true
  | [], _ => Or.inl rfl
  | _ :: _, [] => Or.inr rfl
  | a :: as, b :: bs => by
    rcases lt_trichotomy a b with h | h | h
    · left
      simp [lexLe, h]
    · subst h
      rcases lexLe_total as bs with ih | ih
      · left
        simp [lexLe, lt_irrefl, ih]
      · right
        simp [lexLe, lt_irrefl, ih]
    · right
      simp [lexLe, h]

theorem lexLe_trans : ∀ a b c : List Char,
    lexLe a b = true → lexLe b c = true → lexLe a c = true
  | [], _, _, _, _ => rfl
  | _ :: _, [], _, hab, _ => by simp [lexLe] at hab
  | _ :: _, _ :: _, [], _, hbc => by simp [lexLe] at hbc
  | a :: as, b :: bs, c :: cs, hab, hbc => by
    rw [lexLe] at hab hbc ⊢
    rcases lt_trichotomy a b with h1 | h1 | h1
    · rcases lt_trichotomy b c with h2 | h2 | h2
      · rw [if_pos (lt_trans h1 h2)]
      · rw [← h2]
        rw [if_pos h1]
      · rw [if_neg (not_lt_of_gt h2), if_pos h2] at hbc
        cases hbc
    · rw [← h1] at hab hbc
      rw [if_neg (lt_irrefl a), if_neg (lt_irrefl a)] at hab
      rcases lt_trichotomy a c with h2 | h2 | h2
      · rw [if_pos h2]
      · rw [← h2] at hbc
        rw [if_neg (lt_irrefl a), if_neg (lt_irrefl a)] at hbc
        rw [← h2, if_neg (lt_irrefl a), if_neg (lt_irrefl a)]
        exact lexLe_trans as bs cs hab hbc
      · rw [if_neg (not_lt_of_gt h2), if_pos h2] at hbc
        cases hbc
    · rw [if_neg (not_lt_of_gt h1), if_pos h1] at hab
      cases hab

theorem strLe_total (a b : String) : strLe a b = true ∨ strLe b a = true :=
  lexLe_total a.data b.data

theorem strLe_trans {a b c : String} (h1 : strLe a b = true) (h2 : strLe b c = true) :
    strLe a c = true :=
  lexLe_trans a.data b.data c.data h1 h2

theorem resLeB_total (a b : ResultEntry) : resLeB a b = true ∨ resLeB b a = true := by
  unfold resLeB
  rcases lt_trichotomy a.distance b.distance with h | h | h
  · left
    simp [h]
  · rcases strLe_total a.id b.id with h2 | h2
    · left
      simp [h, h2]
    · right
      simp [h.symm, h2]
  · right
    simp [h]

theorem resLeB_trans {a b c : ResultEntry} (h1 : resLeB a b = true)
    (h2 : resLeB b c = true) : resLeB a c = true := by
  unfold resLeB at h1 h2 ⊢
  simp only [Bool.or_eq_true, Bool.and_eq_true, decide_eq_true_eq] at h1 h2 ⊢
  rcases h1 with h1 | ⟨h1e, h1s⟩
  · rcases h2 with h2 | ⟨h2e, _⟩
    · exact Or.inl (lt_trans h1 h2)
    · exact Or.inl (h2e ▸ h1)
  · rcases h2 with h2 | ⟨h2e, h2s⟩
    · exact Or.inl (h1e ▸ h2)
    · exact Or.inr ⟨h1e.trans h2e, strLe_trans h1s h2s⟩

/-- Insertion step of the model of the JS results sort. -/
def insertRes (x : ResultEntry) : List ResultEntry → List ResultEntry
  | [] => [x]
  | y :: ys => if resLeB x y then x :: y :: ys else y :: insertRes x ys

/-- Model of the JS comparator sort of the results list: insertion sort is a
correct model because the comparator is a total preorder and, with duplicate
node ids impossible, the sorted order is unique. -/
def sortResults (l : List ResultEntry) : List ResultEntry := l.foldr insertRes []

theorem insertRes_perm (x : ResultEntry) (l : List ResultEntry) :
    (insertRes x l).Perm (x :: l) := by
  induction l with
  | nil => rfl
  | cons y ys ih =>
    rw [insertRes]
    by_cases h : resLeB x y = true
    · rw [if_pos h]
    · rw [if_neg h]
      exact List.Perm.trans (List.Perm.cons y ih) (List.Perm.swap x y ys)

theorem sortResults_perm (l : List ResultEntry) : (sortResults l).Perm l := by
  induction l with
  | nil => rfl
  | cons x xs ih =>
    show (insertRes x (sortResults xs)).Perm (x :: xs)
    exact (insertRes_perm x (sortResults xs)).trans (List.Perm.cons x ih)

theorem mem_insertRes {z x : ResultEntry} {l : List ResultEntry} :
    z ∈ insertRes x l ↔ z = x ∨ z ∈ l := by
  constructor
  · intro h
    have := (insertRes_perm x l).mem_iff.mp h
    simpa using this
  · intro h
    apply (insertRes_perm x l).mem_iff.mpr
    simpa using h

theorem insertRes_sorted (x : ResultEntry) (l : List ResultEntry)
    (h : l.Pairwise (fun a b => resLeB a b = true)) :
    (insertRes x l).Pairwise (fun a b => resLeB a b = true) := by
  induction l with
  | nil => simp [insertRes]
  | cons y ys ih =>
    rw [insertRes]
    rw [List.pairwise_cons] at h
    by_cases hxy : resLeB x y = true
    · rw [if_pos hxy]
      rw [List.pairwise_cons]
      constructor
      · intro z hz
        rcases List.mem_cons.mp hz with hz | hz
        · exact hz ▸ hxy
        · exact resLeB_trans hxy (h.1 z hz)
      · exact List.pairwise_cons.mpr h
    · rw [if_neg hxy]
      rw [List.pairwise_cons]
      constructor
      · intro z hz
        rcases mem_insertRes.mp hz with hz | hz
        · subst hz
          rcases resLeB_total z y with ht | ht
          · exact absurd ht hxy
          · exact ht
        · exact h.1 z hz
      · exact ih h.2

theorem sortResults_sorted (l : List ResultEntry) :
    (sortResults l).Pairwise (fun a b => resLeB a b = true) := by
  induction l with
  | nil => simp [sortResults]
  | cons x xs ih => exact insertRes_sorted x (sortResults xs) ih

/-! ## Seed-set construction (JS Set over the normalized start files) -/

/-- Deduplication keeping first occurrences, the iteration order of a JS Set
built by insertion. -/
def dedupSeen (seen : List String) : List String → List String
  | [] => []
  | x :: xs => if seen.contains x then dedupSeen seen xs else x :: dedupSeen (x :: seen) xs

def jsSetOf (l : List String) : List String := dedupSeen [] l

theorem mem_dedupSeen {v : String} :
    ∀ {seen l : List String}, v ∈ dedupSeen seen l ↔ v ∈ l ∧ v ∉ seen := by
  intro seen l
  induction l generalizing seen with
  | nil => simp [dedupSeen]
  | cons x xs ih =>
    rw [dedupSeen]
    by_cases hx : seen.contains x
    · rw [if_pos hx]
      rw [ih]
      constructor
      · rintro ⟨h1, h2⟩
        exact ⟨List.mem_cons_of_mem _ h1, h2⟩
      · rintro ⟨h1, h2⟩
        rcases List.mem_cons.mp h1 with h1 | h1
        · subst h1
          exact absurd (by simpa using hx) h2
        · exact ⟨h1, h2⟩
    · rw [if_neg hx]
      constructor
      · intro h
        rcases List.mem_cons.mp h with h | h
        · subst h
          exact ⟨List.mem_cons_self _ _, by simpa using hx⟩
        · obtain ⟨h1, h2⟩ := ih.mp h
          refine ⟨List.mem_cons_of_mem _ h1, ?_⟩
          intro hc
          exact h2 (List.mem_cons_of_mem _ hc)
      · rintro ⟨h1, h2⟩
        rcases List.mem_cons.mp h1 with h1 | h1
        · subst h1
          exact List.mem_cons_self _ _
        · by_cases hvx : v = x
          · subst hvx
            exact List.mem_cons_self _ _
          · apply List.mem_cons_of_mem
            apply ih.mpr
            refine ⟨h1, ?_⟩
            intro hc
            rcases List.mem_cons.mp hc with hc | hc
            · exact hvx hc
            · exact h2 hc

theorem dedupSeen_nodup : ∀ (seen l : List String), (dedupSeen seen l).Nodup := by
  intro seen l
  induction l generalizing seen with
  | nil => simp [dedupSeen]
  | cons x xs ih =>
    rw [dedupSeen]
    by_cases hx : seen.contains x
    · rw [if_pos hx]
      exact ih seen
    · rw [if_neg hx]
      rw [List.nodup_cons]
      refine ⟨?_, ih (x :: seen)⟩
      intro hc
      exact (mem_dedupSeen.mp hc).2 (List.mem_cons_self _ _)

theorem mem_jsSetOf {v : String} {l : List String} : v ∈ jsSetOf l ↔ v ∈ l := by
  rw [jsSetOf, mem_dedupSeen]
  simp

theorem jsSetOf_nodup (l : List String) : (jsSetOf l).Nodup := dedupSeen_nodup [] l

/-! ## traverseImpact (impact.js lines 22-73) -/

/-- Graph snapshot as consumed by traverseImpact: the edge list plus an
optional reverse index (a legacy snapshot lacks the field, modeled none). -/
structure TGraph where
  edges : List Edge
  reverse : Option (List (String × List Edge))

structure ImpactResult where
  results : List ResultEntry
  edges : List Edge
  seeds : List String
deriving DecidableEq, Repr

/-- Reverse adjacency actually used by the traversal: the snapshot's reverse
index if it is an object, else the derivation from the edge list. -/
def effReverse (g : TGraph) : List (String × List Edge) :=
  match g.reverse with
  | some r => r
  | none => deriveReverse g.edges

/-- State of the BFS after the while-loop, seeded at distance 0. -/
def impactState (g : TGraph) (startFiles : List String) (includeDynamic : Bool)
    (depth : ℕ∞) : BfsState :=
  bfsLoop (effReverse g) includeDynamic depth
    ⟨(jsSetOf startFiles).map (fun s => (s, 0)), jsSetOf startFiles, []⟩

/-- traverseImpact of impact.js. The normalizeSet step (path canonicalization
of start files against the metadata project root) is a filesystem-path
computation on ids; ids are modeled as already canonical, so the seed set is
the JS Set of the given start ids, in order. -/
def traverseImpact (g : TGraph) (startFiles : List String) (includeDynamic : Bool)
    (depth : ℕ∞) : ImpactResult :=
  let seeds := jsSetOf startFiles
  let stf := impactState g startFiles includeDynamic depth
  let results := sortResults ((stf.visited.filter (fun p => !(seeds.contains p.1))).map
    (fun p => ⟨p.1, p.2, detectNodeType p.1⟩))
  ⟨results, stf.edgeMap.map (fun p => p.2), seeds⟩

theorem lookup_map_zero_some {seeds : List String} {v : String} {n : Nat}
    (h : (seeds.map (fun s => (s, (0 : Nat)))).lookup v = some n) : v ∈ seeds ∧ n = 0 := by
  induction seeds with
  | nil => simp [List.lookup] at h
  | cons s ss ih =>
    rw [List.map_cons, List.lookup] at h
    by_cases hv : (v == s) = true
    · rw [hv] at h
      cases h
      simp at hv
      exact ⟨by simp [hv], rfl⟩
    · rw [show (v == s) = false from by simp_all] at h
      obtain ⟨h1, h2⟩ := ih h
      exact ⟨List.mem_cons_of_mem _ h1, h2⟩

theorem lookup_map_zero_mem {seeds : List String} {v : String} (h : v ∈ seeds) :
    (seeds.map (fun s => (s, (0 : Nat)))).lookup v = some 0 := by
  induction seeds with
  | nil => simp at h
  | cons s ss ih =>
    rw [List.map_cons, List.lookup]
    by_cases hv : (v == s) = true
    · rw [hv]
    · rw [show (v == s) = false from by simp_all]
      rcases List.mem_cons.mp h with h1 | h1
      · simp at hv
        exact absurd h1 hv
      · exact ih h1

/-- The invariant holds on the initial BFS state. -/
theorem bfsInv_init (rev : List (String × List Edge)) (inc : Bool) (seeds : List String)
    (depth : ℕ∞) (hnd : seeds.Nodup) :
    BfsInv rev inc seeds depth ⟨seeds.map (fun s => (s, 0)), seeds, []⟩ := by
  refine ⟨?_, ?_, ?_, ?_, ?_, ?_⟩
  · intro v n h
    obtain ⟨hmem, hn⟩ := lookup_map_zero_some h
    subst hn
    refine ⟨⟨ReachN.seed v hmem, ?_⟩, ?_⟩
    · intro m hm
      exact absurd hm (Nat.not_lt_zero m)
    · simp
  · intro u k hu hnot _ _ _ _
    obtain ⟨hmem, _⟩ := lookup_map_zero_some hu
    exact absurd hmem hnot
  · exact ⟨0, seeds, [], by simp, fun a ha => lookup_map_zero_mem ha, by simp⟩
  · have : (seeds.map (fun s => (s, (0 : Nat)))).map (fun p => p.1) = seeds := by
      rw [List.map_map]
      exact List.map_id seeds
    rw [this]
    exact hnd
  · intro s hs
    exact lookup_map_zero_mem hs
  · intro x hx
    rw [lookup_map_zero_mem hx]
    simp

theorem lookup_of_mem_nodup {β : Type} {l : List (String × β)} {k : String} {v : β}
    (h : (k, v) ∈ l) (hnd : (l.map (fun p => p.1)).Nodup) : l.lookup k = some v := by
  induction l with
  | nil => simp at h
  | cons p rest ih =>
    rw [List.map_cons, List.nodup_cons] at hnd
    rcases List.mem_cons.mp h with heq | hmem
    · subst heq
      exact lookup_cons_self
    · rw [List.lookup]
      by_cases hk : (k == p.1) = true
      · exfalso
        simp at hk
        subst hk
        exact hnd.1 (List.mem_map.mpr ⟨(p.1, v), hmem, rfl⟩)
      · rw [show (k == p.1) = false from by simp_all]
        exact ih hmem hnd.2

theorem contains_iff_mem {l : List String} {v : String} : l.contains v = true ↔ v ∈ l := by
  induction l with
  | nil => simp
  | cons x xs ih => simp

/-- Membership characterization of traverseImpact results: an entry appears
exactly for the non-seed nodes whose minimal admitted reverse-edge distance
is within the depth bound, carrying that distance and the detected type. -/
theorem mem_results_iff (g : TGraph) (start : List String) (inc : Bool) (depth : ℕ∞)
    (r : ResultEntry) :
    r ∈ (traverseImpact g start inc depth).results ↔
      (IsMinDist (effReverse g) inc (jsSetOf start) r.distance r.id ∧
        ((r.distance : ℕ∞) ≤ depth) ∧ r.id ∉ jsSetOf start ∧
        r.type = detectNodeType r.id) := by
  have hinit := bfsInv_init (effReverse g) inc (jsSetOf start) depth (jsSetOf_nodup start)
  obtain ⟨hfin, hqnil⟩ := bfsLoop_inv (effReverse g) inc (jsSetOf start) depth _ hinit
  have hchar := bfs_final_char (effReverse g) inc (jsSetOf start) depth _ hinit
  show r ∈ sortResults _ ↔ _
  rw [(sortResults_perm _).mem_iff, List.mem_map]
  constructor
  · rintro ⟨p, hp, rfl⟩
    rw [List.mem_filter] at hp
    obtain ⟨hpv, hpn⟩ := hp
    have hlk := lookup_of_mem_nodup hpv hfin.nodupKeys
    obtain ⟨hmin, hle⟩ := (hchar p.1 p.2).mp hlk
    refine ⟨hmin, hle, ?_, rfl⟩
    intro hc
    rw [Bool.not_eq_true', ← Bool.not_eq_true] at hpn
    exact hpn (contains_iff_mem.mpr hc)
  · rintro ⟨hmin, hle, hns, htype⟩
    refine ⟨(r.id, r.distance), ?_, ?_⟩
    · rw [List.mem_filter]
      refine ⟨lookup_mem ((hchar r.id r.distance).mpr ⟨hmin, hle⟩), ?_⟩
      rw [Bool.not_eq_true']
      rw [← Bool.not_eq_true]
      intro hc
      exact hns (contains_iff_mem.mp hc)
    · cases r
      simp_all

theorem reachN_zero_inv {rev : List (String × List Edge)} {inc : Bool} {seeds : List String}
    {v : String} (h : ReachN rev inc seeds 0 v) : v ∈ seeds := by
  cases h with
  | seed s hs => exact hs

theorem reachN_succ_inv {rev : List (String × List Edge)} {inc : Bool} {seeds : List String}
    {n : Nat} {v : String} (h : ReachN rev inc seeds (n + 1) v) :
    ∃ u e, ReachN rev inc seeds n u ∧ e ∈ incomingOf rev u ∧
      allowedEdge inc e = true ∧ e.«from» = v := by
  cases h with
  | step n u e hu he hae => exact ⟨u, e, hu, he, hae, rfl⟩

/-- Three-node graph: a dynamic reverse edge a→b in one hop, and a
non-dynamic path a→c→b in two hops. -/
def exampleGraphDyn : TGraph :=
  ⟨[⟨"b", "a", "dynamic", true⟩, ⟨"c", "a", "import", false⟩, ⟨"b", "c", "import", false⟩],
    none⟩

/-- C1 (amended): for every graph, seed set, and options, every entry of
traverseImpact's results has distance equal to the minimum number of
reverse-edge hops over the edges admitted by the options (all reverse edges
when includeDynamic is true, the non-dynamic ones when it is false, within
the depth bound); no seed ever appears in results; and results is sorted by
(distance ascending, id ascending). -/
theorem C1_results_min_distance_sorted (g : TGraph) (start : List String) (inc : Bool)
    (depth : ℕ∞) :
    ((traverseImpact g start inc depth).results.Pairwise (fun a b => resLeB a b = true)) ∧
    (∀ r ∈ (traverseImpact g start inc depth).results,
      r.id ∉ (traverseImpact g start inc depth).seeds) ∧
    (∀ r ∈ (traverseImpact g start inc depth).results,
      IsMinDist (effReverse g) inc (jsSetOf start) r.distance r.id) := by
  refine ⟨sortResults_sorted _, ?_, ?_⟩
  · intro r hr
    exact ((mem_results_iff g start inc depth r).mp hr).2.2.1
  · intro r hr
    exact ((mem_results_iff g start inc depth r).mp hr).1

/-- C1 counterexample: with includeDynamic=false on exampleGraphDyn, node b
is reported at distance 2, yet a single (dynamic) reverse edge links the seed
to b, so the reported distance is not the minimum number of reverse-edge hops
of the graph: the claim is false when quantified over all options. -/
theorem C1_counterexample :
    (∃ r ∈ (traverseImpact exampleGraphDyn ["a"] false ⊤).results,
      r.id = "b" ∧ r.distance = 2) ∧
    ReachN (effReverse exampleGraphDyn) true ["a"] 1 "b" ∧
    ¬ IsMinDist (effReverse exampleGraphDyn) true ["a"] 2 "b" := by
  have hinc : incomingOf (effReverse exampleGraphDyn) "a" =
      [⟨"b", "a", "dynamic", true⟩, ⟨"c", "a", "import", false⟩] := by decide
  have hincc : incomingOf (effReverse exampleGraphDyn) "c" =
      [⟨"b", "c", "import", false⟩] := by decide
  have hseeds : jsSetOf ["a"] = ["a"] := by decide
  have hreach1 : ReachN (effReverse exampleGraphDyn) true ["a"] 1 "b" := by
    have h0 : ReachN (effReverse exampleGraphDyn) true ["a"] 0 "a" :=
      ReachN.seed "a" (by decide)
    have := ReachN.step 0 "a" (⟨"b", "a", "dynamic", true⟩ : Edge) h0
      (by rw [hinc]; exact List.mem_cons_self _ _) rfl
    exact this
  refine ⟨?_, hreach1, ?_⟩
  · refine ⟨⟨"b", 2, "code"⟩, ?_, rfl, rfl⟩
    rw [mem_results_iff]
    rw [hseeds]
    have hr2 : ReachN (effReverse exampleGraphDyn) false ["a"] 2 "b" := by
      have h0 : ReachN (effReverse exampleGraphDyn) false ["a"] 0 "a" :=
        ReachN.seed "a" (by decide)
      have h1 := ReachN.step 0 "a" (⟨"c", "a", "import", false⟩ : Edge) h0
        (by rw [hinc]; exact List.mem_cons_of_mem _ (List.mem_cons_self _ _)) rfl
      have h2 := ReachN.step 1 "c" (⟨"b", "c", "import", false⟩ : Edge) h1
        (by rw [hincc]; exact List.mem_cons_self _ _) rfl
      exact h2
    have hnot0 : ¬ ReachN (effReverse exampleGraphDyn) false ["a"] 0 "b" := by
      intro h
      have := reachN_zero_inv h
      simp at this
    have hnot1 : ¬ ReachN (effReverse exampleGraphDyn) false ["a"] 1 "b" := by
      intro h
      obtain ⟨u, e, hu, he, hae, hef⟩ := reachN_succ_inv h
      have hua : u = "a" := by
        have := reachN_zero_inv hu
        simpa using this
      subst hua
      rw [hinc] at he
      rcases List.mem_cons.mp he with he | he
      · subst he
        simp [allowedEdge] at hae
      · rcases List.mem_cons.mp he with he | he
        · subst he
          simp at hef
        · simp at he
    refine ⟨⟨hr2, ?_⟩, by simp, by decide, by decide⟩
    intro m hm
    interval_cases m
    · exact hnot0
    · exact hnot1
  · intro hmin
    exact hmin.2 1 (by omega) hreach1

/-- A node id occurs among the results exactly when it is not a seed and has
a minimal admitted distance within the depth bound. -/
theorem id_mem_results_iff (g : TGraph) (start : List String) (inc : Bool) (depth : ℕ∞)
    (v : String) :
    (∃ r ∈ (traverseImpact g start inc depth).results, r.id = v) ↔
      (v ∉ jsSetOf start ∧
        ∃ n, IsMinDist (effReverse g) inc (jsSetOf start) n v ∧ (n : ℕ∞) ≤ depth) := by
  constructor
  · rintro ⟨r, hr, rfl⟩
    obtain ⟨hmin, hle, hns, _⟩ := (mem_results_iff g start inc depth r).mp hr
    exact ⟨hns, r.distance, hmin, hle⟩
  · rintro ⟨hns, n, hmin, hle⟩
    refine ⟨⟨v, n, detectNodeType v⟩, ?_, rfl⟩
    exact (mem_results_iff g start inc depth _).mpr ⟨hmin, hle, hns, rfl⟩

/-- C2: for every graph, seed set and depth bound, no result's distance
exceeds the bound, and a node appears in the results exactly when it is not a
seed and its minimal admitted reverse-edge distance is within the bound; in
particular a node first discovered at exactly the bound is included, and the
dependents of such a node appear only if some admitted path of length within
the bound reaches them. -/
theorem C2_depth_bound (g : TGraph) (start : List String) (inc : Bool) (depth : ℕ∞) :
    (∀ r ∈ (traverseImpact g start inc depth).results, (r.distance : ℕ∞) ≤ depth) ∧
    (∀ v, (∃ r ∈ (traverseImpact g start inc depth).results, r.id = v) ↔
      (v ∉ jsSetOf start ∧
        ∃ n, IsMinDist (effReverse g) inc (jsSetOf start) n v ∧ (n : ℕ∞) ≤ depth)) := by
  constructor
  · intro r hr
    exact ((mem_results_iff g start inc depth r).mp hr).2.1
  · exact id_mem_results_iff g start inc depth

/-- Nodes reachable at all (over admitted edges) are exactly those with a
minimal distance. -/
theorem reachable_iff_minDist {rev : List (String × List Edge)} {inc : Bool}
    {seeds : List String} {v : String} :
    (∃ n, ReachN rev inc seeds n v) ↔ ∃ n, IsMinDist rev inc seeds n v := by
  constructor
  · rintro ⟨n, h⟩
    obtain ⟨m, _, hm⟩ := exists_isMinDist h
    exact ⟨m, hm⟩
  · rintro ⟨n, h⟩
    exact ⟨n, h.1⟩

/-- C6: at the default unbounded depth, the includeDynamic=false run returns
exactly the includeDynamic=true results minus the nodes reachable from the
seeds only through at least one dynamic edge; and each such removed node
appears in the unrestricted run at its unrestricted minimal distance. -/
theorem C6_dynamic_filter (g : TGraph) (start : List String) :
    (∀ v, (∃ r ∈ (traverseImpact g start false ⊤).results, r.id = v) ↔
      ((∃ r ∈ (traverseImpact g start true ⊤).results, r.id = v) ∧
        ¬ ((∃ n, ReachN (effReverse g) true (jsSetOf start) n v) ∧
          ¬ (∃ n, ReachN (effReverse g) false (jsSetOf start) n v)))) ∧
    (∀ v, ((∃ r ∈ (traverseImpact g start true ⊤).results, r.id = v) ∧
        ¬ (∃ r ∈ (traverseImpact g start false ⊤).results, r.id = v)) →
      ∃ r ∈ (traverseImpact g start true ⊤).results, r.id = v ∧
        IsMinDist (effReverse g) true (jsSetOf start) r.distance v) := by
  have hmem : ∀ (inc : Bool) v,
      (∃ r ∈ (traverseImpact g start inc ⊤).results, r.id = v) ↔
        (v ∉ jsSetOf start ∧ ∃ n, ReachN (effReverse g) inc (jsSetOf start) n v) := by
    intro inc v
    rw [id_mem_results_iff g start inc ⊤ v]
    rw [reachable_iff_minDist]
    constructor
    · rintro ⟨hns, n, hmin, _⟩
      exact ⟨hns, n, hmin⟩
    · rintro ⟨hns, n, hmin⟩
      exact ⟨hns, n, hmin, le_top⟩
  constructor
  · intro v
    rw [hmem false v, hmem true v]
    constructor
    · rintro ⟨hns, n, hr⟩
      refine ⟨⟨hns, n, reachN_mono hr⟩, ?_⟩
      intro hc
      exact hc.2 ⟨n, hr⟩
    · rintro ⟨⟨hns, n, hr⟩, hc⟩
      refine ⟨hns, ?_⟩
      by_contra hno
      exact hc ⟨⟨n, hr⟩, fun ⟨m, hm⟩ => hno ⟨m, hm⟩⟩
  · intro v ⟨hin, _⟩
    obtain ⟨r, hr, hrid⟩ := hin
    obtain ⟨hmin, _, _, _⟩ := (mem_results_iff g start true ⊤ r).mp hr
    exact ⟨r, hr, hrid, hrid ▸ hmin⟩

/-- Follows the spec's words for the legacy-snapshot rule: derive the reverse
index from the edges list by transposition, each edge grouped under its
target node in order. -/
def transposeEdgesSpec (edges : List Edge) : List (String × List Edge) :=
  edges.foldl (fun acc e => pushAssoc acc e.«to» e) []

theorem deriveReverse_eq_transpose {edges : List Edge}
    (h : ∀ e ∈ edges, e.«from» ≠ "" ∧ e.«to» ≠ "") :
    deriveReverse edges = transposeEdgesSpec edges := by
  unfold deriveReverse transposeEdgesSpec
  have : ∀ acc : List (String × List Edge),
      edges.foldl (fun acc e => if e.«to» = "" ∨ e.«from» = "" then acc
        else pushAssoc acc e.«to» e) acc =
      edges.foldl (fun acc e => pushAssoc acc e.«to» e) acc := by
    induction edges with
    | nil => intro acc; rfl
    | cons e es ih =>
      intro acc
      have he := h e (List.mem_cons_self _ _)
      rw [List.foldl_cons, List.foldl_cons]
      rw [if_neg (by push_neg; exact ⟨he.2, he.1⟩)]
      exact ih (fun e' he' => h e' (List.mem_cons_of_mem _ he')) _
  exact this []

/-- C7: a snapshot lacking the reverse index yields exactly the traversal of
the same snapshot extended with the reverse index derived by transposing its
edges list (for well-formed snapshots whose edges carry non-empty endpoint
ids). -/
theorem C7_legacy_reverse (edges : List Edge) (start : List String) (inc : Bool)
    (depth : ℕ∞) (h : ∀ e ∈ edges, e.«from» ≠ "" ∧ e.«to» ≠ "") :
    traverseImpact ⟨edges, none⟩ start inc depth =
      traverseImpact ⟨edges, some (transposeEdgesSpec edges)⟩ start inc depth := by
  simp only [traverseImpact, impactState, effReverse]
  rw [deriveReverse_eq_transpose h]

/-- Witness for C7 at a concrete one-edge snapshot. -/
theorem C7_legacy_reverse_witness :
    (∀ e ∈ [Edge.mk "b" "a" "import" false], e.«from» ≠ "" ∧ e.«to» ≠ "") ∧
    traverseImpact ⟨[Edge.mk "b" "a" "import" false], none⟩ ["a"] true ⊤ =
      traverseImpact ⟨[Edge.mk "b" "a" "import" false],
        some (transposeEdgesSpec [Edge.mk "b" "a" "import" false])⟩ ["a"] true ⊤ :=
  ⟨by decide, C7_legacy_reverse _ _ _ _ (by decide)⟩

/-! ## Graph construction (graph.js: buildGraph body, addNode / addEdge) -/

/-- Node record of graph.js: id plus the detected type. -/
structure GNode where
  id : String
  type : String
deriving DecidableEq, Repr

/-- Forward-adjacency entry pushed by addEdge: fields to, kind, dynamic. -/
structure FwdEntry where
  «to» : String
  kind : String
  dynamic : Bool
deriving DecidableEq, Repr

/-- The in-construction graph. Reverse-adjacency entries are pushed without a
"to" field (graph.js line 261); the missing field is modeled as "", and
relativizeGraph later materializes it (line 405). Nodes / forward / reverse
are JS objects modeled as insertion-ordered association lists. -/
structure BGraph where
  nodes : List (String × GNode)
  edges : List Edge
  forward : List (String × List FwdEntry)
  reverse : List (String × List Edge)
deriving Repr

/-- addNode of buildGraph: register the id with its detected type unless it
is already present. -/
def addNode (g : BGraph) (id : String) : BGraph :=
  if (g.nodes.lookup id).isSome then g
  else { g with nodes := g.nodes ++ [(id, ⟨id, detectNodeType id⟩)] }

/-- addEdge of buildGraph: append the edge record and push the matching
forward and reverse adjacency entries. -/
def addEdge (g : BGraph) (f t kind : String) (dynamic : Bool) : BGraph :=
  { g with
    edges := g.edges ++ [⟨f, t, kind, dynamic⟩],
    forward := pushAssoc g.forward f ⟨t, kind, dynamic⟩,
    reverse := pushAssoc g.reverse t ⟨f, "", kind, dynamic⟩ }

/-- One node- or edge-registration step of the buildGraph file loop. -/
inductive BuildOp where
  | node (id : String)
  | edge («from» «to» kind : String) (dynamic : Bool)

def applyOp (g : BGraph) : BuildOp → BGraph
  | .node id => addNode g id
  | .edge f t k d => addEdge g f t k d

def emptyBGraph : BGraph := ⟨[], [], [], []⟩

/-- A build run is a sequence of registrations played from the empty graph;
buildGraph performs file discovery, parsing, and resolution (I/O) to choose
the sequence, so the invariants are proved for every sequence the source can
emit. -/
def buildFromTrace (ops : List BuildOp) : BGraph := ops.foldl applyOp emptyBGraph

/-- buildGraph only ever calls addEdge after addNode of both endpoints (the
origin file is pre-registered at line 265, the target right before each
addEdge call). -/
def WfTrace (known : List String) : List BuildOp → Prop
  | [] => True
  | .node id :: t => WfTrace (id :: known) t
  | .edge f tt _ _ :: t => f ∈ known ∧ tt ∈ known ∧ WfTrace known t

/-- Forward-adjacency entries an edge list induces for a given source key. -/
def edgesOfFrom (edges : List Edge) (k : String) : List FwdEntry :=
  (edges.filter (fun e => e.«from» == k)).map (fun e => ⟨e.«to», e.kind, e.dynamic⟩)

/-- Reverse-adjacency entries an edge list induces for a given target key
(without the to field, as pushed by addEdge). -/
def edgesOfTo (edges : List Edge) (k : String) : List Edge :=
  (edges.filter (fun e => e.«to» == k)).map (fun e => ⟨e.«from», "", e.kind, e.dynamic⟩)

structure GraphInv (g : BGraph) : Prop where
  endpoints : ∀ e ∈ g.edges, (g.nodes.lookup e.«from»).isSome ∧ (g.nodes.lookup e.«to»).isSome
  fwdKeysNodup : (g.forward.map (fun p => p.1)).Nodup
  revKeysNodup : (g.reverse.map (fun p => p.1)).Nodup
  fwdEntries : ∀ p ∈ g.forward, p.2 = edgesOfFrom g.edges p.1
  revEntries : ∀ p ∈ g.reverse, p.2 = edgesOfTo g.edges p.1
  fwdCovers : ∀ e ∈ g.edges, e.«from» ∈ g.forward.map (fun p => p.1)
  revCovers : ∀ e ∈ g.edges, e.«to» ∈ g.reverse.map (fun p => p.1)
  fwdNonempty : ∀ p ∈ g.forward, p.2 ≠ []
  revNonempty : ∀ p ∈ g.reverse, p.2 ≠ []
  nodesNodup : (g.nodes.map (fun p => p.1)).Nodup
  nodesTyped : ∀ p ∈ g.nodes, p.2 = ⟨p.1, detectNodeType p.1⟩
theorem pushAssoc_keys {α : Type} :
    ∀ (m : List (String × List α)) (k : String) (v : α),
      (pushAssoc m k v).map (fun p => p.1) =
        if (m.lookup k).isSome then m.map (fun p => p.1) else m.map (fun p => p.1) ++ [k] := by
  intro m
  induction m with
  | nil => intro k v; simp [pushAssoc, List.lookup]
  | cons p rest ih =>
    intro k v
    cases p with
    | mk k' l =>
      simp only [pushAssoc]
      by_cases hk : k' = k
      · rw [if_pos hk, List.lookup]
        rw [show (k == k') = true from by simp [hk]]
        simp
      · rw [if_neg hk, List.map_cons, ih k v, List.lookup]
        rw [show (k == k') = false from by simp [Ne.symm hk]]
        by_cases hs : (rest.lookup k).isSome
        · rw [if_pos hs, if_pos hs, List.map_cons]
        · rw [if_neg hs, if_neg hs, List.map_cons, List.cons_append]

theorem mem_pushAssoc_ne {α : Type} {m : List (String × List α)} {k : String} {v : α}
    {p : String × List α} (hp : p ∈ pushAssoc m k v) (hne : p.1 ≠ k) : p ∈ m := by
  induction m with
  | nil =>
    simp [pushAssoc] at hp
    subst hp
    simp at hne
  | cons q rest ih =>
    cases q with
    | mk k' l =>
      simp only [pushAssoc] at hp
      by_cases hk : k' = k
      · rw [if_pos hk] at hp
        rcases List.mem_cons.mp hp with h | h
        · rw [h] at hne
          simp at hne
          exact absurd hk hne
        · exact List.mem_cons_of_mem _ h
      · rw [if_neg hk] at hp
        rcases List.mem_cons.mp hp with h | h
        · rw [h]
          exact List.mem_cons_self _ _
        · exact List.mem_cons_of_mem _ (ih h)

theorem mem_pushAssoc_of_ne {α : Type} {m : List (String × List α)} {k : String} {v : α}
    {p : String × List α} (hp : p ∈ m) (hne : p.1 ≠ k) : p ∈ pushAssoc m k v := by
  induction m with
  | nil => simp at hp
  | cons q rest ih =>
    cases q with
    | mk k' l =>
      simp only [pushAssoc]
      by_cases hk : k' = k
      · rw [if_pos hk]
        rcases List.mem_cons.mp hp with h | h
        · subst h
          exact absurd hk hne
        · exact List.mem_cons_of_mem _ h
      · rw [if_neg hk]
        rcases List.mem_cons.mp hp with h | h
        · subst h
          exact List.mem_cons_self _ _
        · exact List.mem_cons_of_mem _ (ih h)

theorem mem_pushAssoc_eq {α : Type} {m : List (String × List α)} {k : String} {v : α}
    (hnd : (m.map (fun p => p.1)).Nodup) {p : String × List α}
    (hp : p ∈ pushAssoc m k v) (heq : p.1 = k) :
    p.2 = (m.lookup k).getD [] ++ [v] := by
  induction m with
  | nil =>
    simp [pushAssoc] at hp
    subst hp
    simp [List.lookup]
  | cons q rest ih =>
    cases q with
    | mk k' l =>
      rw [List.map_cons, List.nodup_cons] at hnd
      simp only [pushAssoc] at hp
      by_cases hk : k' = k
      · rw [if_pos hk] at hp
        rw [List.lookup]
        rw [show (k == k') = true from by simp [hk]]
        rcases List.mem_cons.mp hp with h | h
        · rw [h]
          simp
        · exfalso
          exact hnd.1 (List.mem_map.mpr ⟨p, h, heq.trans hk.symm⟩)
      · rw [if_neg hk] at hp
        rw [List.lookup]
        rw [show (k == k') = false from by simp [Ne.symm hk]]
        rcases List.mem_cons.mp hp with h | h
        · exfalso
          rw [h] at heq
          exact hk heq
        · exact ih hnd.2 h

theorem key_mem_pushAssoc {α : Type} (m : List (String × List α)) (k : String) (v : α) :
    k ∈ (pushAssoc m k v).map (fun p => p.1) := by
  rw [pushAssoc_keys]
  by_cases hs : (m.lookup k).isSome
  · rw [if_pos hs]
    obtain ⟨l, hl⟩ := Option.isSome_iff_exists.mp hs
    exact List.mem_map.mpr ⟨(k, l), lookup_mem hl, rfl⟩
  · rw [if_neg hs]
    simp

theorem edgesOfFrom_append (l : List Edge) (e : Edge) (k : String) :
    edgesOfFrom (l ++ [e]) k =
      edgesOfFrom l k ++ (if e.«from» = k then [⟨e.«to», e.kind, e.dynamic⟩] else []) := by
  unfold edgesOfFrom
  rw [List.filter_append, List.map_append]
  congr 1
  by_cases h : e.«from» = k
  · rw [if_pos h]
    simp [h]
  · rw [if_neg h]
    simp [h]

theorem edgesOfTo_append (l : List Edge) (e : Edge) (k : String) :
    edgesOfTo (l ++ [e]) k =
      edgesOfTo l k ++ (if e.«to» = k then [⟨e.«from», "", e.kind, e.dynamic⟩] else []) := by
  unfold edgesOfTo
  rw [List.filter_append, List.map_append]
  congr 1
  by_cases h : e.«to» = k
  · rw [if_pos h]
    simp [h]
  · rw [if_neg h]
    simp [h]

theorem keys_sub_pushAssoc {α : Type} {m : List (String × List α)} {x k : String} (v : α)
    (h : x ∈ m.map (fun p => p.1)) : x ∈ (pushAssoc m k v).map (fun p => p.1) := by
  rw [pushAssoc_keys]
  by_cases hs : (m.lookup k).isSome
  · rw [if_pos hs]
    exact h
  · rw [if_neg hs]
    exact List.mem_append.mpr (Or.inl h)

theorem edgesOfFrom_nil_of_not_covered {edges : List Edge} {keys : List String} {f : String}
    (hcov : ∀ e ∈ edges, e.«from» ∈ keys) (hf : f ∉ keys) : edgesOfFrom edges f = [] := by
  unfold edgesOfFrom
  rw [show edges.filter (fun e => e.«from» == f) = [] from ?_, List.map_nil]
  rw [List.filter_eq_nil_iff]
  intro e he
  simp only [beq_iff_eq]
  intro hc
  exact hf (hc ▸ hcov e he)

theorem edgesOfTo_nil_of_not_covered {edges : List Edge} {keys : List String} {t : String}
    (hcov : ∀ e ∈ edges, e.«to» ∈ keys) (ht : t ∉ keys) : edgesOfTo edges t = [] := by
  unfold edgesOfTo
  rw [show edges.filter (fun e => e.«to» == t) = [] from ?_, List.map_nil]
  rw [List.filter_eq_nil_iff]
  intro e he
  simp only [beq_iff_eq]
  intro hc
  exact ht (hc ▸ hcov e he)

theorem addNode_inv {g : BGraph} (hinv : GraphInv g) (id : String) :
    GraphInv (addNode g id) := by
  unfold addNode
  by_cases hs : (g.nodes.lookup id).isSome
  · rw [if_pos hs]
    exact hinv
  · rw [if_neg hs]
    have hnone : g.nodes.lookup id = none := by
      cases h : g.nodes.lookup id with
      | none => rfl
      | some w => rw [h] at hs; simp at hs
    refine ⟨?_, hinv.fwdKeysNodup, hinv.revKeysNodup, hinv.fwdEntries, hinv.revEntries,
      hinv.fwdCovers, hinv.revCovers, hinv.fwdNonempty, hinv.revNonempty, ?_, ?_⟩
    · intro e he
      obtain ⟨h1, h2⟩ := hinv.endpoints e he
      obtain ⟨v1, hv1⟩ := Option.isSome_iff_exists.mp h1
      obtain ⟨v2, hv2⟩ := Option.isSome_iff_exists.mp h2
      constructor
      · rw [lookup_append_left hv1]
        simp
      · rw [lookup_append_left hv2]
        simp
    · rw [List.map_append]
      rw [List.nodup_append]
      refine ⟨hinv.nodesNodup, by simp, ?_⟩
      intro x hx
      simp only [List.map_cons, List.map_nil, List.mem_singleton]
      intro hc
      subst hc
      exact (lookup_none_not_keys hnone) hx
    · intro p hp
      rcases List.mem_append.mp hp with h | h
      · exact hinv.nodesTyped p h
      · simp at h
        rw [h]

theorem addEdge_inv {g : BGraph} (hinv : GraphInv g) (f t kind : String) (dynamic : Bool)
    (hf : (g.nodes.lookup f).isSome) (ht : (g.nodes.lookup t).isSome) :
    GraphInv (addEdge g f t kind dynamic) := by
  unfold addEdge
  refine ⟨?_, ?_, ?_, ?_, ?_, ?_, ?_, ?_, ?_, hinv.nodesNodup, hinv.nodesTyped⟩
  · intro e he
    rcases List.mem_append.mp he with h | h
    · exact hinv.endpoints e h
    · simp at h
      rw [h]
      exact ⟨hf, ht⟩
  · rw [pushAssoc_keys]
    by_cases hs : (g.forward.lookup f).isSome
    · rw [if_pos hs]
      exact hinv.fwdKeysNodup
    · rw [if_neg hs]
      rw [List.nodup_append]
      refine ⟨hinv.fwdKeysNodup, by simp, ?_⟩
      intro x hx
      simp only [List.mem_singleton]
      intro hc
      subst hc
      have hnone : g.forward.lookup x = none := by
        cases h : g.forward.lookup x with
        | none => rfl
        | some w => rw [h] at hs; simp at hs
      exact (lookup_none_not_keys hnone) hx
  · rw [pushAssoc_keys]
    by_cases hs : (g.reverse.lookup t).isSome
    · rw [if_pos hs]
      exact hinv.revKeysNodup
    · rw [if_neg hs]
      rw [List.nodup_append]
      refine ⟨hinv.revKeysNodup, by simp, ?_⟩
      intro x hx
      simp only [List.mem_singleton]
      intro hc
      subst hc
      have hnone : g.reverse.lookup x = none := by
        cases h : g.reverse.lookup x with
        | none => rfl
        | some w => rw [h] at hs; simp at hs
      exact (lookup_none_not_keys hnone) hx
  · intro p hp
    by_cases hpk : p.1 = f
    · have hval := mem_pushAssoc_eq hinv.fwdKeysNodup hp hpk
      rw [hval, hpk, edgesOfFrom_append]
      rw [if_pos rfl]
      congr 1
      cases hlk : g.forward.lookup f with
      | none =>
        have hfk : f ∉ g.forward.map (fun p => p.1) := lookup_none_not_keys hlk
        rw [edgesOfFrom_nil_of_not_covered hinv.fwdCovers hfk]
        simp
      | some l =>
        have hmem := lookup_mem hlk
        have := hinv.fwdEntries (f, l) hmem
        simp at this 
        rw [← this]
        simp
    · have hp' := mem_pushAssoc_ne hp hpk
      rw [hinv.fwdEntries p hp', edgesOfFrom_append]
      rw [if_neg (fun hc => hpk hc.symm)]
      simp
  · intro p hp
    by_cases hpk : p.1 = t
    · have hval := mem_pushAssoc_eq hinv.revKeysNodup hp hpk
      rw [hval, hpk, edgesOfTo_append]
      rw [if_pos rfl]
      congr 1
      cases hlk : g.reverse.lookup t with
      | none =>
        have htk : t ∉ g.reverse.map (fun p => p.1) := lookup_none_not_keys hlk
        rw [edgesOfTo_nil_of_not_covered hinv.revCovers htk]
        simp
      | some l =>
        have hmem := lookup_mem hlk
        have := hinv.revEntries (t, l) hmem
        simp at this
        rw [← this]
        simp
    · have hp' := mem_pushAssoc_ne hp hpk
      rw [hinv.revEntries p hp', edgesOfTo_append]
      rw [if_neg (fun hc => hpk hc.symm)]
      simp
  · intro e he
    rcases List.mem_append.mp he with h | h
    · exact keys_sub_pushAssoc _ (hinv.fwdCovers e h)
    · simp at h
      rw [h]
      exact key_mem_pushAssoc _ _ _
  · intro e he
    rcases List.mem_append.mp he with h | h
    · exact keys_sub_pushAssoc _ (hinv.revCovers e h)
    · simp at h
      rw [h]
      exact key_mem_pushAssoc _ _ _
  · intro p hp
    by_cases hpk : p.1 = f
    · rw [mem_pushAssoc_eq hinv.fwdKeysNodup hp hpk]
      simp
    · exact hinv.fwdNonempty p (mem_pushAssoc_ne hp hpk)
  · intro p hp
    by_cases hpk : p.1 = t
    · rw [mem_pushAssoc_eq hinv.revKeysNodup hp hpk]
      simp
    · exact hinv.revNonempty p (mem_pushAssoc_ne hp hpk)

theorem emptyBGraph_inv : GraphInv emptyBGraph := by
  refine ⟨?_, ?_, ?_, ?_, ?_, ?_, ?_, ?_, ?_, ?_, ?_⟩ <;> simp [emptyBGraph]

theorem addNode_keys_iff {g : BGraph} {id x : String} :
    x ∈ (addNode g id).nodes.map (fun p => p.1) ↔
      x = id ∨ x ∈ g.nodes.map (fun p => p.1) := by
  unfold addNode
  by_cases hs : (g.nodes.lookup id).isSome
  · rw [if_pos hs]
    constructor
    · exact Or.inr
    · rintro (h | h)
      · subst h
        obtain ⟨v, hv⟩ := Option.isSome_iff_exists.mp hs
        exact List.mem_map.mpr ⟨(x, v), lookup_mem hv, rfl⟩
      · exact h
  · rw [if_neg hs]
    simp only [List.map_append]
    rw [List.mem_append]
    constructor
    · rintro (h | h)
      · exact Or.inr h
      · simp at h
        exact Or.inl h
    · rintro (h | h)
      · right
        simp [h]
      · exact Or.inl h

theorem build_inv_aux :
    ∀ (ops : List BuildOp) (g : BGraph) (known : List String), GraphInv g →
      (∀ x ∈ known, x ∈ g.nodes.map (fun p => p.1)) → WfTrace known ops →
      GraphInv (ops.foldl applyOp g) := by
  intro ops
  induction ops with
  | nil => intro g known hinv _ _; exact hinv
  | cons op rest ih =>
    intro g known hinv hkn hwf
    cases op with
    | node id =>
      rw [List.foldl_cons]
      refine ih (addNode g id) (id :: known) (addNode_inv hinv id) ?_ hwf
      intro x hx
      rw [addNode_keys_iff]
      rcases List.mem_cons.mp hx with h | h
      · exact Or.inl h
      · exact Or.inr (hkn x h)
    | edge f t k d =>
      obtain ⟨hfm, htm, hwf'⟩ := hwf
      rw [List.foldl_cons]
      refine ih (addEdge g f t k d) known
        (addEdge_inv hinv f t k d (mem_keys_isSome (hkn f hfm)) (mem_keys_isSome (hkn t htm)))
        ?_ hwf'
      intro x hx
      exact hkn x hx

/-- Every graph assembled by a well-formed sequence of buildGraph
registrations satisfies the structural invariants. -/
theorem buildFromTrace_inv {ops : List BuildOp} (hwf : WfTrace [] ops) :
    GraphInv (buildFromTrace ops) :=
  build_inv_aux ops emptyBGraph [] emptyBGraph_inv (by simp) hwf

theorem sum_map_add {β : Type} (l : List β) (f g : β → Nat) :
    (l.map (fun x => f x + g x)).sum = (l.map f).sum + (l.map g).sum := by
  induction l with
  | nil => simp
  | cons x xs ih =>
    simp only [List.map_cons, List.sum_cons, ih]
    omega

theorem sum_indicator_one {keys : List String} {x : String} (hnd : keys.Nodup)
    (hx : x ∈ keys) : (keys.map (fun k => if x = k then 1 else 0)).sum = 1 := by
  induction keys with
  | nil => simp at hx
  | cons k ks ih =>
    rw [List.map_cons, List.sum_cons]
    rw [List.nodup_cons] at hnd
    rcases List.mem_cons.mp hx with h | h
    · rw [if_pos h]
      have hz : ks.map (fun k' => if x = k' then 1 else 0) = ks.map (fun _ => 0) := by
        apply List.map_congr_left
        intro k' hk'
        rw [if_neg]
        intro hc
        apply hnd.1
        rw [← h, hc]
        exact hk'
      rw [hz]
      simp
    · rw [if_neg (fun hc => hnd.1 (by rw [← hc]; exact h))]
      simp [ih hnd.2 h]

theorem sum_filter_lengths (key : Edge → String) :
    ∀ (edges : List Edge) (keys : List String), keys.Nodup →
      (∀ e ∈ edges, key e ∈ keys) →
      (keys.map (fun k => (edges.filter (fun e => key e == k)).length)).sum = edges.length := by
  intro edges
  induction edges with
  | nil => intro keys _ _; simp
  | cons e es ih =>
    intro keys hnd hcov
    have hsplit : keys.map (fun k => ((e :: es).filter (fun e' => key e' == k)).length) =
        keys.map (fun k =>
          (if key e = k then 1 else 0) + (es.filter (fun e' => key e' == k)).length) := by
      apply List.map_congr_left
      intro k _
      rw [List.filter_cons]
      by_cases h : key e = k
      · rw [if_pos (by simp [h]), if_pos h]
        simp [Nat.add_comm]
      · rw [if_neg (by simp [h]), if_neg h]
        simp
    rw [hsplit, sum_map_add, sum_indicator_one hnd (hcov e (List.mem_cons_self _ _)),
      ih keys hnd (fun e' he' => hcov e' (List.mem_cons_of_mem _ he'))]
    simp [Nat.add_comm]

/-! ## relativizeGraph (graph.js lines 359-415) -/

/-- JS object assignment obj[k] = v: replace the value in place if the key
exists (keys keep their first-insertion position), else append. -/
def setAssoc {α : Type} : List (String × α) → String → α → List (String × α)
  | [], k, v => [(k, v)]
  | (k', w) :: rest, k, v =>
    if k' = k then (k', v) :: rest else (k', w) :: setAssoc rest k v

/-- The node-id map of relativizeGraph: relativize every node key; any id
outside the map is left unchanged ("map.get(id) || id"). relId abstracts
relativizeId(·, projectRoot), a pure path computation. -/
def remapOf (g : BGraph) (relId : String → String) (id : String) : String :=
  ((g.nodes.map (fun p => (p.1, relId p.1))).lookup id).getD id

/-- relativizeGraph of graph.js: rebuild nodes, edges, forward and reverse
with every id passed through the node-id map; reverse entries regain a to
field from the entry's own to or its grouping key ("e.to || to"). -/
def relativizeGraph (relId : String → String) (g : BGraph) : BGraph :=
  { nodes := g.nodes.foldl
      (fun acc p => setAssoc acc (remapOf g relId p.1) ⟨remapOf g relId p.1, p.2.type⟩) [],
    edges := g.edges.map (fun e =>
      { e with «from» := remapOf g relId e.«from», «to» := remapOf g relId e.«to» }),
    forward := g.forward.foldl (fun acc p => setAssoc acc (remapOf g relId p.1)
      (p.2.map (fun fe => { fe with «to» := remapOf g relId fe.«to» }))) [],
    reverse := g.reverse.foldl (fun acc p => setAssoc acc (remapOf g relId p.1)
      (p.2.map (fun re => ⟨remapOf g relId re.«from»,
        remapOf g relId (if re.«to» = "" then p.1 else re.«to»), re.kind, re.dynamic⟩))) [] }

theorem setAssoc_fresh {α : Type} :
    ∀ {acc : List (String × α)} {k : String} (v : α), acc.lookup k = none →
      setAssoc acc k v = acc ++ [(k, v)] := by
  intro acc
  induction acc with
  | nil => intro k v _; rfl
  | cons q rest ih =>
    intro k v h
    cases q with
    | mk k' w =>
      rw [List.lookup] at h
      by_cases hk : k' = k
      · rw [show (k == k') = true from by simp [hk]] at h
        cases h
      · rw [show (k == k') = false from by simp [Ne.symm hk]] at h
        simp only [setAssoc]
        rw [if_neg hk, ih v h]
        rfl

theorem foldl_setAssoc {β γ : Type} (keyf : String × β → String) (valf : String × β → γ) :
    ∀ (m : List (String × β)) (acc : List (String × γ)), (m.map keyf).Nodup →
      (∀ p ∈ m, acc.lookup (keyf p) = none) →
      m.foldl (fun acc p => setAssoc acc (keyf p) (valf p)) acc =
        acc ++ m.map (fun p => (keyf p, valf p)) := by
  intro m
  induction m with
  | nil => intro acc _ _; simp
  | cons p ps ih =>
    intro acc hnd hfresh
    rw [List.map_cons, List.nodup_cons] at hnd
    rw [List.foldl_cons, setAssoc_fresh (valf p) (hfresh p (List.mem_cons_self _ _))]
    rw [ih (acc ++ [(keyf p, valf p)]) hnd.2 ?_]
    · simp
    · intro q hq
      rw [lookup_append, hfresh q (List.mem_cons_of_mem _ hq), lookup_singleton]
      rw [if_neg]
      · rfl
      · intro hc
        exact hnd.1 (hc ▸ List.mem_map.mpr ⟨q, hq, rfl⟩)

theorem filter_of_map {α β : Type} (f : α → β) (p : β → Bool) (l : List α) :
    (l.map f).filter p = (l.filter (fun x => p (f x))).map f := by
  induction l with
  | nil => rfl
  | cons x xs ih =>
    rw [List.map_cons, List.filter_cons, List.filter_cons]
    by_cases h : p (f x) = true
    · rw [if_pos h, if_pos h, List.map_cons, ih]
    · rw [if_neg h, if_neg h, ih]

theorem remapOf_mem {g : BGraph} {relId : String → String} {id : String}
    (hnd : (g.nodes.map (fun p => p.1)).Nodup) (h : id ∈ g.nodes.map (fun p => p.1)) :
    remapOf g relId id = relId id := by
  obtain ⟨p, hp, hpeq⟩ := List.mem_map.mp h
  have hmem : (id, relId id) ∈ g.nodes.map (fun p => (p.1, relId p.1)) :=
    List.mem_map.mpr ⟨p, hp, by rw [hpeq]⟩
  have hkeys : (g.nodes.map (fun p => (p.1, relId p.1))).map (fun p => p.1) =
      g.nodes.map (fun p => p.1) := by
    rw [List.map_map]
    rfl
  unfold remapOf
  rw [lookup_of_mem_nodup hmem (by rw [hkeys]; exact hnd)]
  rfl

theorem lookup_isSome_mem_keys {β : Type} {l : List (String × β)} {k : String}
    (h : (l.lookup k).isSome) : k ∈ l.map (fun p => p.1) := by
  obtain ⟨v, hv⟩ := Option.isSome_iff_exists.mp h
  exact List.mem_map.mpr ⟨(k, v), lookup_mem hv, rfl⟩

/-- Structural invariants survive relativization when the id map is injective
on the graph's node ids (true of path relativization against a fixed project
root on the canonical absolute ids buildGraph produces). -/
theorem relativize_inv (g : BGraph) (relId : String → String) (hinv : GraphInv g)
    (hinj : ∀ a ∈ g.nodes.map (fun p => p.1), ∀ b ∈ g.nodes.map (fun p => p.1),
      relId a = relId b → a = b) :
    (∀ e ∈ (relativizeGraph relId g).edges,
      e.«from» ∈ (relativizeGraph relId g).nodes.map (fun p => p.1) ∧
      e.«to» ∈ (relativizeGraph relId g).nodes.map (fun p => p.1)) ∧
    (∀ p ∈ (relativizeGraph relId g).forward,
      p.2 = edgesOfFrom (relativizeGraph relId g).edges p.1) ∧
    (∀ e ∈ (relativizeGraph relId g).edges,
      e.«from» ∈ (relativizeGraph relId g).forward.map (fun p => p.1)) ∧
    (∀ p ∈ (relativizeGraph relId g).reverse,
      p.2 = (relativizeGraph relId g).edges.filter (fun e => e.«to» == p.1)) ∧
    (∀ e ∈ (relativizeGraph relId g).edges,
      e.«to» ∈ (relativizeGraph relId g).reverse.map (fun p => p.1)) ∧
    (((relativizeGraph relId g).forward.map (fun p => p.2.length)).sum =
      (relativizeGraph relId g).edges.length) ∧
    (((relativizeGraph relId g).reverse.map (fun p => p.2.length)).sum =
      (relativizeGraph relId g).edges.length) := by
  have h_rmp_inj : ∀ a ∈ g.nodes.map (fun p => p.1), ∀ b ∈ g.nodes.map (fun p => p.1),
      remapOf g relId a = remapOf g relId b → a = b := by
    intro a ha b hb h
    rw [remapOf_mem hinv.nodesNodup ha, remapOf_mem hinv.nodesNodup hb] at h
    exact hinj a ha b hb h
  have hfwdsub : ∀ k ∈ g.forward.map (fun p => p.1), k ∈ g.nodes.map (fun p => p.1) := by
    intro k hk
    obtain ⟨p, hp, hpeq⟩ := List.mem_map.mp hk
    have hne := hinv.fwdNonempty p hp
    rw [hinv.fwdEntries p hp] at hne
    unfold edgesOfFrom at hne
    cases hfil : g.edges.filter (fun e => e.«from» == p.1) with
    | nil => rw [hfil] at hne; simp at hne
    | cons e es =>
      have hememb : e ∈ g.edges.filter (fun e => e.«from» == p.1) := by
        rw [hfil]; exact List.mem_cons_self _ _
      rw [List.mem_filter] at hememb
      have := (hinv.endpoints e hememb.1).1
      have hkeq : e.«from» = p.1 := by simpa using hememb.2
      rw [← hpeq, ← hkeq]
      exact lookup_isSome_mem_keys this
  have hrevsub : ∀ k ∈ g.reverse.map (fun p => p.1), k ∈ g.nodes.map (fun p => p.1) := by
    intro k hk
    obtain ⟨p, hp, hpeq⟩ := List.mem_map.mp hk
    have hne := hinv.revNonempty p hp
    rw [hinv.revEntries p hp] at hne
    unfold edgesOfTo at hne
    cases hfil : g.edges.filter (fun e => e.«to» == p.1) with
    | nil => rw [hfil] at hne; simp at hne
    | cons e es =>
      have hememb : e ∈ g.edges.filter (fun e => e.«to» == p.1) := by
        rw [hfil]; exact List.mem_cons_self _ _
      rw [List.mem_filter] at hememb
      have := (hinv.endpoints e hememb.1).2
      have hkeq : e.«to» = p.1 := by simpa using hememb.2
      rw [← hpeq, ← hkeq]
      exact lookup_isSome_mem_keys this
  have hnd_nodes : (g.nodes.map (fun p => remapOf g relId p.1)).Nodup := by
    have h0 : g.nodes.map (fun p => remapOf g relId p.1) =
        (g.nodes.map (fun p => p.1)).map (fun k => remapOf g relId k) := by
      rw [List.map_map]
      rfl
    rw [h0]
    exact List.Nodup.map_on h_rmp_inj hinv.nodesNodup
  have hnd_fwd : (g.forward.map (fun p => remapOf g relId p.1)).Nodup := by
    have h0 : g.forward.map (fun p => remapOf g relId p.1) =
        (g.forward.map (fun p => p.1)).map (fun k => remapOf g relId k) := by
      rw [List.map_map]
      rfl
    rw [h0]
    refine List.Nodup.map_on ?_ hinv.fwdKeysNodup
    intro a ha b hb h
    exact h_rmp_inj a (hfwdsub a ha) b (hfwdsub b hb) h
  have hnd_rev : (g.reverse.map (fun p => remapOf g relId p.1)).Nodup := by
    have h0 : g.reverse.map (fun p => remapOf g relId p.1) =
        (g.reverse.map (fun p => p.1)).map (fun k => remapOf g relId k) := by
      rw [List.map_map]
      rfl
    rw [h0]
    refine List.Nodup.map_on ?_ hinv.revKeysNodup
    intro a ha b hb h
    exact h_rmp_inj a (hrevsub a ha) b (hrevsub b hb) h
  have hnodes_eq : (relativizeGraph relId g).nodes =
      g.nodes.map (fun p => (remapOf g relId p.1, ⟨remapOf g relId p.1, p.2.type⟩)) := by
    have h1 := foldl_setAssoc (fun p => remapOf g relId p.1)
      (fun p => (⟨remapOf g relId p.1, p.2.type⟩ : GNode)) g.nodes [] hnd_nodes
      (fun _ _ => rfl)
    simpa [relativizeGraph] using h1
  have hfwd_eq : (relativizeGraph relId g).forward =
      g.forward.map (fun p => (remapOf g relId p.1,
        p.2.map (fun fe => { fe with «to» := remapOf g relId fe.«to» }))) := by
    have h1 := foldl_setAssoc (fun p => remapOf g relId p.1)
      (fun p => p.2.map (fun fe => { fe with «to» := remapOf g relId fe.«to» }))
      g.forward [] hnd_fwd (fun _ _ => rfl)
    simpa [relativizeGraph] using h1
  have hrev_eq : (relativizeGraph relId g).reverse =
      g.reverse.map (fun p => (remapOf g relId p.1,
        p.2.map (fun re => (⟨remapOf g relId re.«from»,
          remapOf g relId (if re.«to» = "" then p.1 else re.«to»),
          re.kind, re.dynamic⟩ : Edge)))) := by
    have h1 := foldl_setAssoc (fun p => remapOf g relId p.1)
      (fun p => p.2.map (fun re => (⟨remapOf g relId re.«from»,
        remapOf g relId (if re.«to» = "" then p.1 else re.«to»),
        re.kind, re.dynamic⟩ : Edge))) g.reverse [] hnd_rev (fun _ _ => rfl)
    simpa [relativizeGraph] using h1
  have hedges_eq : (relativizeGraph relId g).edges =
      g.edges.map (fun e =>
        { e with «from» := remapOf g relId e.«from», «to» := remapOf g relId e.«to» }) := rfl
  have hnodekeys : (relativizeGraph relId g).nodes.map (fun p => p.1) =
      g.nodes.map (fun p => remapOf g relId p.1) := by
    rw [hnodes_eq, List.map_map]
    rfl
  have hfwdkeys : (relativizeGraph relId g).forward.map (fun p => p.1) =
      g.forward.map (fun p => remapOf g relId p.1) := by
    rw [hfwd_eq, List.map_map]
    rfl
  have hrevkeys : (relativizeGraph relId g).reverse.map (fun p => p.1) =
      g.reverse.map (fun p => remapOf g relId p.1) := by
    rw [hrev_eq, List.map_map]
    rfl
  have hfilter_from : ∀ k ∈ g.nodes.map (fun p => p.1),
      (g.edges.map (fun e =>
          { e with «from» := remapOf g relId e.«from», «to» := remapOf g relId e.«to» })).filter
        (fun e => e.«from» == remapOf g relId k) =
      (g.edges.filter (fun e => e.«from» == k)).map (fun e =>
        { e with «from» := remapOf g relId e.«from», «to» := remapOf g relId e.«to» }) := by
    intro k hk
    rw [filter_of_map]
    congr 1
    apply List.filter_congr
    intro e he
    show (remapOf g relId e.«from» == remapOf g relId k) = (e.«from» == k)
    have hef : e.«from» ∈ g.nodes.map (fun p => p.1) :=
      lookup_isSome_mem_keys (hinv.endpoints e he).1
    by_cases h : e.«from» = k
    · rw [h]
      simp
    · rw [show (e.«from» == k) = false from by simp [h]]
      rw [show (remapOf g relId e.«from» == remapOf g relId k) = false from ?_]
      simp only [beq_eq_false_iff_ne, ne_eq]
      intro hc
      exact h (h_rmp_inj e.«from» hef k hk hc)
  have hfilter_to : ∀ k ∈ g.nodes.map (fun p => p.1),
      (g.edges.map (fun e =>
          { e with «from» := remapOf g relId e.«from», «to» := remapOf g relId e.«to» })).filter
        (fun e => e.«to» == remapOf g relId k) =
      (g.edges.filter (fun e => e.«to» == k)).map (fun e =>
        { e with «from» := remapOf g relId e.«from», «to» := remapOf g relId e.«to» }) := by
    intro k hk
    rw [filter_of_map]
    congr 1
    apply List.filter_congr
    intro e he
    show (remapOf g relId e.«to» == remapOf g relId k) = (e.«to» == k)
    have hef : e.«to» ∈ g.nodes.map (fun p => p.1) :=
      lookup_isSome_mem_keys (hinv.endpoints e he).2
    by_cases h : e.«to» = k
    · rw [h]
      simp
    · rw [show (e.«to» == k) = false from by simp [h]]
      rw [show (remapOf g relId e.«to» == remapOf g relId k) = false from ?_]
      simp only [beq_eq_false_iff_ne, ne_eq]
      intro hc
      exact h (h_rmp_inj e.«to» hef k hk hc)
  have hEndpoints : ∀ e ∈ (relativizeGraph relId g).edges,
      e.«from» ∈ (relativizeGraph relId g).nodes.map (fun p => p.1) ∧
      e.«to» ∈ (relativizeGraph relId g).nodes.map (fun p => p.1) := by
    rw [hedges_eq]
    intro e' he'
    obtain ⟨e, he, rfl⟩ := List.mem_map.mp he'
    rw [hnodekeys]
    have h1 : e.«from» ∈ g.nodes.map (fun p => p.1) :=
      lookup_isSome_mem_keys (hinv.endpoints e he).1
    have h2 : e.«to» ∈ g.nodes.map (fun p => p.1) :=
      lookup_isSome_mem_keys (hinv.endpoints e he).2
    obtain ⟨p1, hp1, hp1e⟩ := List.mem_map.mp h1
    obtain ⟨p2, hp2, hp2e⟩ := List.mem_map.mp h2
    constructor
    · exact List.mem_map.mpr ⟨p1, hp1, by rw [hp1e]⟩
    · exact List.mem_map.mpr ⟨p2, hp2, by rw [hp2e]⟩
  have hFwdEnt : ∀ p ∈ (relativizeGraph relId g).forward,
      p.2 = edgesOfFrom (relativizeGraph relId g).edges p.1 := by
    rw [hfwd_eq]
    intro p' hp'
    obtain ⟨p, hp, rfl⟩ := List.mem_map.mp hp'
    show p.2.map _ = edgesOfFrom _ (remapOf g relId p.1)
    have hpk : p.1 ∈ g.nodes.map (fun q => q.1) :=
      hfwdsub p.1 (List.mem_map.mpr ⟨p, hp, rfl⟩)
    unfold edgesOfFrom
    rw [hedges_eq, hfilter_from p.1 hpk, List.map_map]
    rw [hinv.fwdEntries p hp]
    unfold edgesOfFrom
    rw [List.map_map]
    rfl
  have hFwdCov : ∀ e ∈ (relativizeGraph relId g).edges,
      e.«from» ∈ (relativizeGraph relId g).forward.map (fun p => p.1) := by
    rw [hedges_eq, hfwdkeys]
    intro e' he'
    obtain ⟨e, he, rfl⟩ := List.mem_map.mp he'
    have h1 := hinv.fwdCovers e he
    obtain ⟨p, hp, hpe⟩ := List.mem_map.mp h1
    exact List.mem_map.mpr ⟨p, hp, by rw [hpe]⟩
  have hRevEnt : ∀ p ∈ (relativizeGraph relId g).reverse,
      p.2 = (relativizeGraph relId g).edges.filter (fun e => e.«to» == p.1) := by
    rw [hrev_eq]
    intro p' hp'
    obtain ⟨p, hp, rfl⟩ := List.mem_map.mp hp'
    show p.2.map _ = _
    have hpk : p.1 ∈ g.nodes.map (fun q => q.1) :=
      hrevsub p.1 (List.mem_map.mpr ⟨p, hp, rfl⟩)
    rw [hedges_eq, hfilter_to p.1 hpk]
    rw [hinv.revEntries p hp]
    unfold edgesOfTo
    rw [List.map_map]
    apply List.map_congr_left
    intro e he
    rw [List.mem_filter] at he
    have hek : e.«to» = p.1 := by simpa using he.2
    show (⟨remapOf g relId e.«from»,
      remapOf g relId (if ("" : String) = "" then p.1 else ""), e.kind, e.dynamic⟩ : Edge) = _
    rw [if_pos rfl, ← hek]
  have hRevCov : ∀ e ∈ (relativizeGraph relId g).edges,
      e.«to» ∈ (relativizeGraph relId g).reverse.map (fun p => p.1) := by
    rw [hedges_eq, hrevkeys]
    intro e' he'
    obtain ⟨e, he, rfl⟩ := List.mem_map.mp he'
    have h1 := hinv.revCovers e he
    obtain ⟨p, hp, hpe⟩ := List.mem_map.mp h1
    exact List.mem_map.mpr ⟨p, hp, by rw [hpe]⟩
  have hnd_fwd' : ((relativizeGraph relId g).forward.map (fun p => p.1)).Nodup := by
    rw [hfwdkeys]
    exact hnd_fwd
  have hnd_rev' : ((relativizeGraph relId g).reverse.map (fun p => p.1)).Nodup := by
    rw [hrevkeys]
    exact hnd_rev
  have hFwdSum : ((relativizeGraph relId g).forward.map (fun p => p.2.length)).sum =
      (relativizeGraph relId g).edges.length := by
    have hlen : (relativizeGraph relId g).forward.map (fun p => p.2.length) =
        ((relativizeGraph relId g).forward.map (fun p => p.1)).map
          (fun k => ((relativizeGraph relId g).edges.filter
            (fun e => e.«from» == k)).length) := by
      rw [List.map_map]
      apply List.map_congr_left
      intro p hp
      show p.2.length = _
      rw [hFwdEnt p hp]
      unfold edgesOfFrom
      rw [List.length_map]
      rfl
    rw [hlen]
    exact sum_filter_lengths (fun e => e.«from») (relativizeGraph relId g).edges
      ((relativizeGraph relId g).forward.map (fun p => p.1)) hnd_fwd' hFwdCov
  have hRevSum : ((relativizeGraph relId g).reverse.map (fun p => p.2.length)).sum =
      (relativizeGraph relId g).edges.length := by
    have hlen : (relativizeGraph relId g).reverse.map (fun p => p.2.length) =
        ((relativizeGraph relId g).reverse.map (fun p => p.1)).map
          (fun k => ((relativizeGraph relId g).edges.filter
            (fun e => e.«to» == k)).length) := by
      rw [List.map_map]
      apply List.map_congr_left
      intro p hp
      show p.2.length = _
      rw [hRevEnt p hp]
      rfl
    rw [hlen]
    exact sum_filter_lengths (fun e => e.«to») (relativizeGraph relId g).edges
      ((relativizeGraph relId g).reverse.map (fun p => p.1)) hnd_rev' hRevCov
  exact ⟨hEndpoints, hFwdEnt, hFwdCov, hRevEnt, hRevCov, hFwdSum, hRevSum⟩

/-- C5: every graph returned by buildGraph, i.e. a well-formed registration
trace followed by relativization under an id map injective on the node ids,
has every edge endpoint among the node keys, forward and reverse adjacency
exactly transposing the edges list, and as many edges as the summed forward
adjacency lengths and as the summed reverse adjacency lengths. -/
theorem C5_build_invariants (ops : List BuildOp) (relId : String → String)
    (hwf : WfTrace [] ops)
    (hinj : ∀ a ∈ (buildFromTrace ops).nodes.map (fun p => p.1),
      ∀ b ∈ (buildFromTrace ops).nodes.map (fun p => p.1), relId a = relId b → a = b) :
    (∀ e ∈ (relativizeGraph relId (buildFromTrace ops)).edges,
      e.«from» ∈ (relativizeGraph relId (buildFromTrace ops)).nodes.map (fun p => p.1) ∧
      e.«to» ∈ (relativizeGraph relId (buildFromTrace ops)).nodes.map (fun p => p.1)) ∧
    (∀ p ∈ (relativizeGraph relId (buildFromTrace ops)).forward,
      p.2 = edgesOfFrom (relativizeGraph relId (buildFromTrace ops)).edges p.1) ∧
    (∀ e ∈ (relativizeGraph relId (buildFromTrace ops)).edges,
      e.«from» ∈ (relativizeGraph relId (buildFromTrace ops)).forward.map (fun p => p.1)) ∧
    (∀ p ∈ (relativizeGraph relId (buildFromTrace ops)).reverse,
      p.2 = (relativizeGraph relId (buildFromTrace ops)).edges.filter
        (fun e => e.«to» == p.1)) ∧
    (∀ e ∈ (relativizeGraph relId (buildFromTrace ops)).edges,
      e.«to» ∈ (relativizeGraph relId (buildFromTrace ops)).reverse.map (fun p => p.1)) ∧
    (((relativizeGraph relId (buildFromTrace ops)).forward.map (fun p => p.2.length)).sum =
      (relativizeGraph relId (buildFromTrace ops)).edges.length) ∧
    (((relativizeGraph relId (buildFromTrace ops)).reverse.map (fun p => p.2.length)).sum =
      (relativizeGraph relId (buildFromTrace ops)).edges.length) :=
  relativize_inv (buildFromTrace ops) relId (buildFromTrace_inv hwf) hinj

/-- Witness for C5 on a two-node, one-edge build trace with the identity
relativization. -/
theorem C5_build_invariants_witness :
    (WfTrace [] [BuildOp.node "src/b.js", BuildOp.node "src/a.js",
      BuildOp.edge "src/b.js" "src/a.js" "import" false] ∧
    (∀ a ∈ (buildFromTrace [BuildOp.node "src/b.js", BuildOp.node "src/a.js",
        BuildOp.edge "src/b.js" "src/a.js" "import" false]).nodes.map (fun p => p.1),
      ∀ b ∈ (buildFromTrace [BuildOp.node "src/b.js", BuildOp.node "src/a.js",
        BuildOp.edge "src/b.js" "src/a.js" "import" false]).nodes.map (fun p => p.1),
        (fun s => s) a = (fun s => s) b → a = b)) ∧
    (((relativizeGraph (fun s => s) (buildFromTrace [BuildOp.node "src/b.js",
        BuildOp.node "src/a.js",
        BuildOp.edge "src/b.js" "src/a.js" "import" false])).forward.map
          (fun p => p.2.length)).sum =
      (relativizeGraph (fun s => s) (buildFromTrace [BuildOp.node "src/b.js",
        BuildOp.node "src/a.js",
        BuildOp.edge "src/b.js" "src/a.js" "import" false])).edges.length) :=
  ⟨⟨by simp [WfTrace], fun a _ b _ h => h⟩,
    (C5_build_invariants _ (fun s => s) (by simp [WfTrace])
      (fun a _ b _ h => h)).2.2.2.2.2.1⟩

/-- Registration of one script-origin dependency (graph.js lines 340-344):
register the resolved target as a node, then add the edge, collapsing the
kind to pkg when the target is a pkg node. -/
def addCodeDep (g : BGraph) (file target depKind : String) (dynamic : Bool) : BGraph :=
  let g1 := addNode g target
  let kind := if detectNodeType target = "pkg" then "pkg" else depKind
  addEdge g1 file target kind dynamic

/-- Registration of one stylesheet dependency (graph.js lines 348-352):
register the resolved target as a node, then add the edge with the parsed
kind (style for at-import rules, asset for url() values) unchanged. -/
def addStyleDep (g : BGraph) (file target depKind : String) (dynamic : Bool) : BGraph :=
  let g1 := addNode g target
  addEdge g1 file target depKind dynamic

theorem detectNodeType_pkg (s : String) : detectNodeType ("pkg:" ++ s) = "pkg" := by
  unfold detectNodeType
  rw [if_pos]
  unfold startsWithStr
  rw [String.data_append]
  rw [ List.isPrefixOf_iff_prefix]
  exact ⟨s.data, rfl⟩

/-- C10: a stylesheet dependency whose specifier fails to resolve (its target
is a synthetic pkg: id) registers a node of type pkg but keeps its parsed
edge kind (style or asset); a script-origin dependency with the same pkg
target instead records kind pkg. -/
theorem C10_style_edge_kinds (g : BGraph) (file spec depKind : String) (dynamic : Bool)
    (hfresh : g.nodes.lookup ("pkg:" ++ spec) = none) :
    detectNodeType ("pkg:" ++ spec) = "pkg" ∧
    ((addStyleDep g file ("pkg:" ++ spec) depKind dynamic).nodes.lookup ("pkg:" ++ spec) =
      some ⟨"pkg:" ++ spec, "pkg"⟩) ∧
    ((addStyleDep g file ("pkg:" ++ spec) depKind dynamic).edges =
      g.edges ++ [⟨file, "pkg:" ++ spec, depKind, dynamic⟩]) ∧
    ((addCodeDep g file ("pkg:" ++ spec) depKind dynamic).edges =
      g.edges ++ [⟨file, "pkg:" ++ spec, "pkg", dynamic⟩]) := by
  have hnode : (addNode g ("pkg:" ++ spec)).nodes.lookup ("pkg:" ++ spec) =
      some ⟨"pkg:" ++ spec, "pkg"⟩ := by
    unfold addNode
    rw [if_neg (by rw [hfresh]; simp)]
    show (g.nodes ++ _).lookup _ = _
    rw [lookup_append_right hfresh, lookup_cons_self, detectNodeType_pkg]
  have hnedges : (addNode g ("pkg:" ++ spec)).edges = g.edges := by
    unfold addNode
    by_cases hs : (g.nodes.lookup ("pkg:" ++ spec)).isSome
    · rw [if_pos hs]
    · rw [if_neg hs]
  refine ⟨detectNodeType_pkg spec, ?_, ?_, ?_⟩
  · show (addEdge (addNode g ("pkg:" ++ spec)) _ _ _ _).nodes.lookup _ = _
    unfold addEdge
    exact hnode
  · show (addEdge (addNode g ("pkg:" ++ spec)) _ _ _ _).edges = _
    unfold addEdge
    rw [hnedges]
  · show (addEdge (addNode g ("pkg:" ++ spec)) _ _ _ _).edges = _
    unfold addEdge
    rw [hnedges]
    rw [if_pos (detectNodeType_pkg spec)]

/-- Witness for C10 on the empty graph with an asset url() dependency. -/
theorem C10_style_edge_kinds_witness :
    (emptyBGraph.nodes.lookup ("pkg:" ++ "img/x.png") = none) ∧
    ((addStyleDep emptyBGraph "src/a.css" ("pkg:" ++ "img/x.png") "asset" false).edges =
      emptyBGraph.edges ++ [⟨"src/a.css", "pkg:" ++ "img/x.png", "asset", false⟩]) :=
  ⟨by decide, (C10_style_edge_kinds emptyBGraph "src/a.css" "img/x.png" "asset" false
    (by decide)).2.2.1⟩

/-! ## Specifier resolution (graph.js: tryResolveWithExt / resolveWithAlias) -/

/-- Abstraction of the filesystem probes and the Node path module used by the
resolver and the diff parser: fileExists / dirExists model fs.statSync
checks, pathExists models fs.existsSync, joinPath / resolvePath / dirname /
extname / relativePath / isAbsolute / sep model the path module (pure,
platform-dependent string computations). -/
structure FsEnv where
  fileExists : String → Bool
  dirExists : String → Bool
  pathExists : String → Bool
  joinPath : String → String → String
  resolvePath : List String → String
  dirname : String → String
  extname : String → String
  relativePath : String → String → String
  isAbsolute : String → Bool
  sep : Char

/-- tryResolveWithExt of graph.js: exact hit, then each extension appended,
then each extension on an index basename inside a directory. The second
source line (extname guard plus a second exact check) is unreachable and kept
as written. -/
def tryResolveWithExt (env : FsEnv) (basePath : String) (extensions : List String) :
    Option String :=
  if env.fileExists basePath then some basePath
  else if env.extname basePath ≠ "" && env.fileExists basePath then some basePath
  else
    match extensions.find? (fun ex => env.fileExists (basePath ++ ex)) with
    | some ex => some (basePath ++ ex)
    | none =>
      if env.dirExists basePath then
        match extensions.find? (fun ex =>
          env.fileExists (env.joinPath basePath ("index" ++ ex))) with
        | some ex => some (env.joinPath basePath ("index" ++ ex))
        | none => none
      else none

/-- JS truthiness of a nullable string: null and "" both fail the
"if (resolved)" tests of resolveWithAlias. -/
def truthy (o : Option String) : Option String :=
  match o with
  | some "" => none
  | o => o

structure ResolveOpts where
  projectRoot : String
  «alias» : List (String × String)
  extensions : List String

/-- Step 1 of resolveWithAlias: filesystem probing for relative (leading
dot) and root-absolute (leading slash) specifiers. -/
def relativeProbe (env : FsEnv) (spec fromFile : String) (o : ResolveOpts) : Option String :=
  if startsWithStr spec "." || startsWithStr spec "/" then
    let fromDir := env.dirname fromFile
    let targetBase := if startsWithStr spec "/" then env.joinPath o.projectRoot spec
      else env.resolvePath [fromDir, spec]
    tryResolveWithExt env targetBase o.extensions
  else none

/-- One alias-key attempt of the loop in resolveWithAlias: a key matches when
the specifier equals it or starts with it plus a slash; the alias target is
substituted for the key prefix and probed like step 1. -/
def aliasProbe (env : FsEnv) (spec : String) (o : ResolveOpts) (key : String) :
    Option String :=
  if spec == key || startsWithStr spec (key ++ "/") then
    truthy (tryResolveWithExt env
      (env.resolvePath [o.projectRoot, (o.«alias».lookup key).getD "", jsDrop spec (strLen key)])
      o.extensions)
  else none

/-- The alias loop: first matching key whose substitution resolves wins;
a matching but unresolvable key does not stop the search. -/
def findAliased (env : FsEnv) (spec : String) (o : ResolveOpts) : List String → Option String
  | [] => none
  | key :: rest =>
    match aliasProbe env spec o key with
    | some r => some r
    | none => findAliased env spec o rest

/-- Stable insertion placing longer keys first: the model of the JS
Array.sort with comparator (a, b) => b.length - a.length. -/
def insertKeyByLen (x : String) : List String → List String
  | [] => [x]
  | y :: ys => if strLen y ≤ strLen x then x :: y :: ys else y :: insertKeyByLen x ys

def sortKeysDesc (keys : List String) : List String := keys.foldr insertKeyByLen []

/-- resolveWithAlias of graph.js: relative/absolute probing, then the alias
keys in descending length order, else the synthetic package id. -/
def resolveWithAlias (env : FsEnv) (spec fromFile : String) (o : ResolveOpts) : String :=
  match truthy (relativeProbe env spec fromFile o) with
  | some r => r
  | none =>
    match findAliased env spec o (sortKeysDesc (o.«alias».map (fun p => p.1))) with
    | some r => r
    | none => "pkg:" ++ spec

theorem tryResolveWithExt_none {env : FsEnv} {basePath : String} {extensions : List String}
    (hexact : env.fileExists basePath = false)
    (hext : ∀ ex ∈ extensions, env.fileExists (basePath ++ ex) = false)
    (hidx : ∀ ex ∈ extensions, env.fileExists (env.joinPath basePath ("index" ++ ex)) = false) :
    tryResolveWithExt env basePath extensions = none := by
  unfold tryResolveWithExt
  rw [if_neg (by simp [hexact])]
  rw [if_neg (by simp [hexact])]
  rw [show extensions.find? (fun ex => env.fileExists (basePath ++ ex)) = none from
    List.find?_eq_none.mpr (fun ex hex => by simp [hext ex hex])]
  by_cases hd : env.dirExists basePath = true
  · rw [if_pos hd]
    rw [show extensions.find? (fun ex => env.fileExists (env.joinPath basePath ("index" ++ ex)))
        = none from List.find?_eq_none.mpr (fun ex hex => by simp [hidx ex hex])]
  · rw [if_neg hd]

/-- C3: a relative or root-absolute specifier with no exact, extension-
appended, or directory-index filesystem candidate does not raise: resolution
falls through to alias matching, and if no alias substitution resolves
either, the result is the synthetic id "pkg:" ++ specifier. -/
theorem C3_resolution_fallthrough (env : FsEnv) (spec fromFile : String) (o : ResolveOpts)
    (hrel : (startsWithStr spec "." || startsWithStr spec "/") = true)
    (hexact : env.fileExists (if startsWithStr spec "/" then env.joinPath o.projectRoot spec
      else env.resolvePath [env.dirname fromFile, spec]) = false)
    (hext : ∀ ex ∈ o.extensions, env.fileExists
      ((if startsWithStr spec "/" then env.joinPath o.projectRoot spec
        else env.resolvePath [env.dirname fromFile, spec]) ++ ex) = false)
    (hidx : ∀ ex ∈ o.extensions, env.fileExists (env.joinPath
      (if startsWithStr spec "/" then env.joinPath o.projectRoot spec
        else env.resolvePath [env.dirname fromFile, spec]) ("index" ++ ex)) = false) :
    (resolveWithAlias env spec fromFile o =
      match findAliased env spec o (sortKeysDesc (o.«alias».map (fun p => p.1))) with
      | some r => r
      | none => "pkg:" ++ spec) ∧
    (findAliased env spec o (sortKeysDesc (o.«alias».map (fun p => p.1))) = none →
      resolveWithAlias env spec fromFile o = "pkg:" ++ spec) := by
  have hprobe : relativeProbe env spec fromFile o = none := by
    unfold relativeProbe
    rw [if_pos hrel]
    exact tryResolveWithExt_none hexact hext hidx
  have hmain : resolveWithAlias env spec fromFile o =
      match findAliased env spec o (sortKeysDesc (o.«alias».map (fun p => p.1))) with
      | some r => r
      | none => "pkg:" ++ spec := by
    unfold resolveWithAlias
    rw [hprobe]
    rfl
  refine ⟨hmain, ?_⟩
  intro hnone
  rw [hmain, hnone]

/-- Witness for C3: an environment where nothing exists on disk and an alias
map with a matching but unresolvable key. -/
theorem C3_resolution_fallthrough_witness :
    ((startsWithStr "./x" "." || startsWithStr "./x" "/") = true) ∧
    resolveWithAlias
      ⟨fun _ => false, fun _ => false, fun _ => false, fun a b => a ++ "/" ++ b,
        fun l => String.intercalate "/" l, fun _ => "/r/src", fun _ => "", fun _ _ => "",
        fun _ => false, '/'⟩
      "./x" "/r/src/a.js" ⟨"/r", [(".", "/r/lib")], [".js"]⟩ = "pkg:" ++ "./x" := by
  constructor
  · decide
  · have h := C3_resolution_fallthrough
      ⟨fun _ => false, fun _ => false, fun _ => false, fun a b => a ++ "/" ++ b,
        fun l => String.intercalate "/" l, fun _ => "/r/src", fun _ => "", fun _ _ => "",
        fun _ => false, '/'⟩
      "./x" "/r/src/a.js" ⟨"/r", [(".", "/r/lib")], [".js"]⟩
      (by decide) (by decide) (by decide) (by decide)
    refine h.2 ?_
    decide

theorem findAliased_eq_findSome (env : FsEnv) (spec : String) (o : ResolveOpts) :
    ∀ keys : List String,
      findAliased env spec o keys = List.findSome? (aliasProbe env spec o) keys := by
  intro keys
  induction keys with
  | nil => rfl
  | cons key rest ih =>
    rw [findAliased, List.findSome?_cons]
    cases aliasProbe env spec o key with
    | none => simpa using ih
    | some r => rfl

theorem insertKeyByLen_perm (x : String) (l : List String) :
    (insertKeyByLen x l).Perm (x :: l) := by
  induction l with
  | nil => rfl
  | cons y ys ih =>
    rw [insertKeyByLen]
    by_cases h : strLen y ≤ strLen x
    · rw [if_pos h]
    · rw [if_neg h]
      exact List.Perm.trans (List.Perm.cons y ih) (List.Perm.swap x y ys)

theorem sortKeysDesc_perm (l : List String) : (sortKeysDesc l).Perm l := by
  induction l with
  | nil => rfl
  | cons x xs ih =>
    show (insertKeyByLen x (sortKeysDesc xs)).Perm (x :: xs)
    exact (insertKeyByLen_perm x (sortKeysDesc xs)).trans (List.Perm.cons x ih)

theorem mem_insertKeyByLen {z x : String} {l : List String} :
    z ∈ insertKeyByLen x l ↔ z = x ∨ z ∈ l := by
  constructor
  · intro h
    have := (insertKeyByLen_perm x l).mem_iff.mp h
    simpa using this
  · intro h
    apply (insertKeyByLen_perm x l).mem_iff.mpr
    simpa using h

theorem insertKeyByLen_sorted (x : String) (l : List String)
    (h : l.Pairwise (fun a b => strLen b ≤ strLen a)) :
    (insertKeyByLen x l).Pairwise (fun a b => strLen b ≤ strLen a) := by
  induction l with
  | nil => simp [insertKeyByLen]
  | cons y ys ih =>
    rw [insertKeyByLen]
    rw [List.pairwise_cons] at h
    by_cases hxy : strLen y ≤ strLen x
    · rw [if_pos hxy]
      rw [List.pairwise_cons]
      constructor
      · intro z hz
        rcases List.mem_cons.mp hz with hz | hz
        · exact hz ▸ hxy
        · exact le_trans (h.1 z hz) hxy
      · exact List.pairwise_cons.mpr h
    · rw [if_neg hxy]
      rw [List.pairwise_cons]
      constructor
      · intro z hz
        rcases mem_insertKeyByLen.mp hz with hz | hz
        · subst hz
          omega
        · exact h.1 z hz
      · exact ih h.2

theorem sortKeysDesc_sorted (l : List String) :
    (sortKeysDesc l).Pairwise (fun a b => strLen b ≤ strLen a) := by
  induction l with
  | nil => simp [sortKeysDesc]
  | cons x xs ih => exact insertKeyByLen_sorted x (sortKeysDesc xs) ih

theorem findAliased_skip_failing (env : FsEnv) (spec : String) (o : ResolveOpts) :
    ∀ (l₁ l₂ : List String) (key : String), aliasProbe env spec o key = none →
      findAliased env spec o (l₁ ++ key :: l₂) = findAliased env spec o (l₁ ++ l₂) := by
  intro l₁
  induction l₁ with
  | nil =>
    intro l₂ key hfail
    rw [List.nil_append, List.nil_append, findAliased, hfail]
  | cons a l₁' ih =>
    intro l₂ key hfail
    rw [List.cons_append, List.cons_append, findAliased, findAliased]
    cases aliasProbe env spec o a with
    | some r => rfl
    | none => simpa using ih l₂ key hfail

/-- C4: once step 1 has missed, resolution is decided by trying the alias
keys in descending key-length order (a stable by-length sort of the alias
map's keys) and taking the first key whose substituted path resolves; a key
that matches but whose substitution does not resolve never terminates the
search, so later, shorter keys are still tried. -/
theorem C4_alias_order (env : FsEnv) (spec fromFile : String) (o : ResolveOpts)
    (hstep1 : truthy (relativeProbe env spec fromFile o) = none) :
    (resolveWithAlias env spec fromFile o =
      match List.findSome? (aliasProbe env spec o)
        (sortKeysDesc (o.«alias».map (fun p => p.1))) with
      | some r => r
      | none => "pkg:" ++ spec) ∧
    ((sortKeysDesc (o.«alias».map (fun p => p.1))).Pairwise
      (fun a b => strLen b ≤ strLen a)) ∧
    ((sortKeysDesc (o.«alias».map (fun p => p.1))).Perm (o.«alias».map (fun p => p.1))) ∧
    (∀ (l₁ l₂ : List String) (key : String),
      sortKeysDesc (o.«alias».map (fun p => p.1)) = l₁ ++ key :: l₂ →
      aliasProbe env spec o key = none →
      findAliased env spec o (sortKeysDesc (o.«alias».map (fun p => p.1))) =
        findAliased env spec o (l₁ ++ l₂)) := by
  refine ⟨?_, sortKeysDesc_sorted _, sortKeysDesc_perm _, ?_⟩
  · unfold resolveWithAlias
    rw [hstep1, findAliased_eq_findSome]
  · intro l₁ l₂ key hsplit hfail
    rw [hsplit]
    exact findAliased_skip_failing env spec o l₁ l₂ key hfail

/-- Witness for C4: two alias keys where the longer one matches but does not
resolve and the shorter one wins. -/
theorem C4_alias_order_witness :
    (truthy (relativeProbe
      ⟨fun p => p == "/r/lib/x.js", fun _ => false, fun _ => false,
        fun a b => a ++ "/" ++ b, fun l => String.intercalate "/" l, fun _ => "/r/src",
        fun _ => "", fun _ _ => "", fun _ => false, '/'⟩
      "comp/x" "/r/src/a.js" ⟨"/r", [("comp", "lib"), ("comp/x", "nowhere")], [".js"]⟩) =
        none) ∧
    resolveWithAlias
      ⟨fun p => p == "/r/lib/x.js", fun _ => false, fun _ => false,
        fun a b => a ++ "/" ++ b, fun l => String.intercalate "/" l, fun _ => "/r/src",
        fun _ => "", fun _ _ => "", fun _ => false, '/'⟩
      "comp/x" "/r/src/a.js" ⟨"/r", [("comp", "lib"), ("comp/x", "nowhere")], [".js"]⟩ =
      match List.findSome? (aliasProbe
        ⟨fun p => p == "/r/lib/x.js", fun _ => false, fun _ => false,
          fun a b => a ++ "/" ++ b, fun l => String.intercalate "/" l, fun _ => "/r/src",
          fun _ => "", fun _ _ => "", fun _ => false, '/'⟩
        "comp/x" ⟨"/r", [("comp", "lib"), ("comp/x", "nowhere")], [".js"]⟩)
        (sortKeysDesc ((⟨"/r", [("comp", "lib"), ("comp/x", "nowhere")],
          [".js"]⟩ : ResolveOpts).«alias».map (fun p => p.1))) with
      | some r => r
      | none => "pkg:" ++ "comp/x" :=
  ⟨by decide, (C4_alias_order _ "comp/x" "/r/src/a.js" _ (by decide)).1⟩

/-! ## Change-set resolution (git.js) -/

/-- Outcome of one child-process invocation (execSync / spawnSync): error is
the truthiness of res.error (spawn failure), status the exit code, stdout and
stderr the captured streams. An execSync call that throws is modeled as the
absence of an output (Option.none). -/
structure SpawnResult where
  error : Bool
  status : Int
  stdout : String
  stderr : String

/-- getChangedFiles of git.js: on subprocess failure return the empty list,
else split the output on newlines, trim, drop empties, and resolve each
against the project root. The try/catch makes the function total: no
exception reaches the caller. -/
def getChangedFiles (env : FsEnv) (projectRoot : String) (exec : Option String) :
    List String :=
  match exec with
  | none => []
  | some output =>
    (((jsSplitNl output).map jsTrim).filter (fun l => l ≠ "")).map
      (fun p => env.resolvePath [projectRoot, p])

/-- runDiff of getChangedRanges: tolerate a failed spawn, accept exit status
0 or 1, prefer stdout, fall back to stderr. -/
def runDiff (res : SpawnResult) : String :=
  if res.error then ""
  else if res.status == 0 || res.status == 1 then
    (if res.stdout = "" && res.stderr ≠ "" then res.stderr else res.stdout)
  else if res.stdout ≠ "" then res.stdout
  else if res.stderr ≠ "" then res.stderr
  else ""

/-- A 1-indexed changed-line range from a diff hunk header; the end is
start + count - 1 and may be start - 1 (an integer) for a zero-count hunk. -/
structure Range where
  start : Nat
  «end» : Int
deriving DecidableEq, Repr

def takeDigits (l : List Char) : Option (Nat × List Char) :=
  let digits := l.takeWhile Char.isDigit
  if digits = [] then none
  else some (digits.foldl (fun n c => n * 10 + (c.toNat - 48)) 0, l.drop digits.length)

def expectChars (pre : List Char) (l : List Char) : Option (List Char) :=
  if pre.isPrefixOf l then some (l.drop pre.length) else none

/-- Matcher for the hunk-header regex of git.js,
line-anchored "at-at minus digits(,digits)? space plus digits(,digits)? space at-at":
returns the new-side start line and optional count. The character classes are
disjoint, so prefix-greedy matching is equivalent to the regex. -/
def matchHunkHeader (line : String) : Option (Nat × Option Nat) :=
  match expectChars "@@ -".data line.data with
  | none => none
  | some r1 =>
    match takeDigits r1 with
    | none => none
    | some (_, r2) =>
      let r3 : Option (List Char) :=
        match expectChars ",".data r2 with
        | some rr =>
          match takeDigits rr with
          | some (_, rr2) => some rr2
          | none => none
        | none => some r2
      match r3 with
      | none => none
      | some r4 =>
        match expectChars " +".data r4 with
        | none => none
        | some r5 =>
          match takeDigits r5 with
          | none => none
          | some (start, r6) =>
            match expectChars ",".data r6 with
            | some r7 =>
              match takeDigits r7 with
              | none => none
              | some (cnt, r8) =>
                match expectChars " @@".data r8 with
                | none => none
                | some _ => some (start, some cnt)
            | none =>
              match expectChars " @@".data r6 with
              | none => none
              | some _ => some (start, none)

def dropLead (pre s : String) : String :=
  if startsWithStr s pre then jsDrop s (strLen pre) else s

/-- normKey of getChangedRanges: strip diff a/ b/ prefixes and a leading ./
or /, relativize an absolute path that stays inside the project, strip a
leading ../, and normalize separators to slashes. -/
def normKey (env : FsEnv) (projectRoot : String) (p : String) : String :=
  if p = "" then p
  else
    let k := dropLead "b/" (dropLead "a/" p)
    let k := if startsWithStr k "./" then jsDrop k 2 else dropLead "/" k
    let k := if env.isAbsolute k then
        (let rel := env.relativePath projectRoot k
        if rel ≠ "" ∧ ¬ (startsWithStr rel ".." = true) then rel else k)
      else k
    let k := if startsWithStr k "../" then jsDrop k 3 else k
    String.intercalate "/" ((k.data.splitOn env.sep).map strOfChars)

/-- parseDiff of getChangedRanges over the split output lines: a diff header
resets the current file, a "+++ " marker line selects (and pre-registers) the
current file key, and a hunk header appends the new-side line range to the
current key's list. -/
def parseDiffLines (env : FsEnv) (projectRoot : String) :
    List String → Option String → List (String × List Range) → List (String × List Range)
  | [], _, map => map
  | line :: rest, current, map =>
    if startsWithStr line "diff --git" then parseDiffLines env projectRoot rest none map
    else if startsWithStr line "+++ " then
      let filePath := jsTrim (jsDrop line 4)
      let cur := normKey env projectRoot (dropLead "b/" filePath)
      let map1 := if (map.lookup cur).isSome then map else map ++ [(cur, [])]
      parseDiffLines env projectRoot rest (some cur) map1
    else
      match current, matchHunkHeader line with
      | some cur, some (start, cnt) =>
        let c : Int := match cnt with | some n => (n : Int) | none => 1
        let key := normKey env projectRoot cur
        let map1 := if (map.lookup key).isSome then map else map ++ [(key, [])]
        parseDiffLines env projectRoot rest current (pushAssoc map1 key ⟨start, (start : Int) + c - 1⟩)
      | _, _ => parseDiffLines env projectRoot rest current map

/-- The diagnostics record getChangedRanges attaches to its result under the
synthetic __debug key, alongside (not among) the per-file range entries. -/
structure GitDebug where
  rels : List String
  firstArgs : Option (List String)
  firstOutLen : Nat
  firstOutSample : String
  allArgs : Option (List String)
  allOutLen : Nat
  allOutSample : String
  fallbackArgs : Option (List String)
  fallbackOutLen : Nat
  fallbackOutSample : String

/-- Return value of getChangedRanges: the JS object's file-keyed range
entries, with the heterogeneous __debug property modeled as a separate
field. -/
structure RangesResult where
  entries : List (String × List Range)
  debug : GitDebug

/-- getChangedRanges of git.js: a zero-context diff scoped to the given
files, retried without path restriction and then without the revision range
whenever the map is still empty; all subprocess outcomes flow through
runDiff, and the try/catch plus best-effort parsing make the function total. -/
def getChangedRanges (env : FsEnv) (run : List String → SpawnResult)
    (projectRoot range : String) (files : List String) : RangesResult :=
  let rels := (files.map (fun p => env.relativePath projectRoot p)).filter
    (fun p => p ≠ "" && p ≠ "." && !(startsWithStr p ".."))
  let args := ["diff", "--no-color", "--unified=0", range] ++
    (if rels ≠ [] then "--" :: rels else [])
  let out1 := runDiff (run args)
  let map1 := parseDiffLines env projectRoot (jsSplitNl out1) none []
  let argsAll := ["diff", "--no-color", "--unified=0", range]
  let out2 := if map1.isEmpty then runDiff (run argsAll) else ""
  let map2 := if map1.isEmpty then parseDiffLines env projectRoot (jsSplitNl out2) none map1
    else map1
  let fallbackArgs := ["diff", "--no-color", "--unified=0"] ++
    (if rels ≠ [] then "--" :: rels else [])
  let out3 := if map2.isEmpty then runDiff (run fallbackArgs) else ""
  let map3 := if map2.isEmpty then parseDiffLines env projectRoot (jsSplitNl out3) none map2
    else map2
  ⟨map3,
    ⟨rels, some args, strLen out1, jsTake out1 500,
      if map1.isEmpty then some argsAll else none,
      strLen out2, jsTake out2 500,
      if map2.isEmpty then some fallbackArgs else none,
      strLen out3, jsTake out3 500⟩⟩

theorem parseDiffLines_no_marker (env : FsEnv) (projectRoot : String) :
    ∀ (lines : List String) (map : List (String × List Range)),
      (∀ line ∈ lines, startsWithStr line "+++ " = false) →
      parseDiffLines env projectRoot lines none map = map := by
  intro lines
  induction lines with
  | nil => intro map _; rfl
  | cons line rest ih =>
    intro map hno
    rw [parseDiffLines]
    have hline := hno line (List.mem_cons_self _ _)
    have hrest : ∀ l ∈ rest, startsWithStr l "+++ " = false :=
      fun l hl => hno l (List.mem_cons_of_mem _ hl)
    by_cases hd : startsWithStr line "diff --git" = true
    · rw [if_pos hd]
      exact ih map hrest
    · rw [if_neg hd, if_neg (by rw [hline]; simp)]
      exact ih map hrest
    · intro cur s c h hm
      cases h

/-- C8: when the underlying version-control subprocess fails (execution
failure, no repository, or an invalid range, so that every diff invocation
yields only failure output with no file-marker lines), getChangedFiles
returns the empty list and getChangedRanges returns a map with no range
entries; both functions are total, so no exception reaches the caller. -/
theorem C8_git_failures (env : FsEnv) (run : List String → SpawnResult)
    (projectRoot range : String) (files : List String)
    (hfail : ∀ args, ∀ line ∈ jsSplitNl (runDiff (run args)),
      startsWithStr line "+++ " = false) :
    getChangedFiles env projectRoot none = [] ∧
    (getChangedRanges env run projectRoot range files).entries = [] := by
  constructor
  · rfl
  · have h1 : ∀ args map, parseDiffLines env projectRoot (jsSplitNl (runDiff (run args)))
        none map = map :=
      fun args map => parseDiffLines_no_marker env projectRoot _ map (hfail args)
    simp only [getChangedRanges, h1]
    simp [h1]

/-- Witness for C8: a spawn that always fails and a throwing execSync. -/
theorem C8_git_failures_witness :
    (∀ args : List String, ∀ line ∈ jsSplitNl (runDiff
      ((fun _ => (⟨true, 1, "", ""⟩ : SpawnResult)) args)),
      startsWithStr line "+++ " = false) ∧
    (getChangedFiles
      ⟨fun _ => false, fun _ => false, fun _ => false, fun a b => a ++ "/" ++ b,
        fun l => String.intercalate "/" l, fun _ => "", fun _ => "", fun _ _ => "",
        fun _ => false, '/'⟩ "/r" none = [] ∧
    (getChangedRanges
      ⟨fun _ => false, fun _ => false, fun _ => false, fun a b => a ++ "/" ++ b,
        fun l => String.intercalate "/" l, fun _ => "", fun _ => "", fun _ _ => "",
        fun _ => false, '/'⟩
      (fun _ => ⟨true, 1, "", ""⟩) "/r" "HEAD~1..HEAD" ["/r/a.js"]).entries = []) := by
  have hfail : ∀ args : List String, ∀ line ∈ jsSplitNl (runDiff
      ((fun _ => (⟨true, 1, "", ""⟩ : SpawnResult)) args)),
      startsWithStr line "+++ " = false := by
    intro args line hl
    have hout : jsSplitNl (runDiff (⟨true, 1, "", ""⟩ : SpawnResult)) = [""] := by decide
    rw [hout] at hl
    simp at hl
    subst hl
    decide
  exact ⟨hfail, C8_git_failures _ _ "/r" "HEAD~1..HEAD" ["/r/a.js"] hfail⟩

/-! ## Bundler-config resolution (resolvers/webpack.js) -/

def WEBPACK_DEFAULT_EXTS : List String :=
  [".ts", ".tsx", ".js", ".jsx", ".mjs", ".cjs", ".json", ".css", ".scss", ".less"]

def CANDIDATES : List String :=
  ["webpack.config.js", "webpack.config.cjs", "webpack.config.mjs"]

/-- The resolve section of a loaded bundler config; alias and extensions may
each be absent (nullish). -/
structure WResolve where
  «alias» : Option (List (String × String))
  extensions : Option (List String)

/-- A loaded config module: one config object with an optional resolve
section, or an array of config objects, each contributing its optional
resolve section. -/
inductive WConfig where
  | single : Option WResolve → WConfig
  | multi : List (Option WResolve) → WConfig

/-- The base config path of loadWebpackResolve: the explicit override resolved
against the project root, or else the first conventional candidate that exists
on disk. -/
def webpackBase (env : FsEnv) (projectRoot : String) (webpackConfig : Option String) :
    Option String :=
  match webpackConfig with
  | some w => some (env.resolvePath [projectRoot, w])
  | none => (CANDIDATES.map (fun c => env.joinPath projectRoot c)).find?
      (fun p => env.pathExists p)

/-- loadWebpackResolve of resolvers/webpack.js: pick the explicit config path
or the first existing conventional candidate; absence or a load failure
(importCfg models the dynamic import, an exception being Except.error) yields
empty alias and the default extension list; on success the config's
resolve.alias and resolve.extensions are taken, the defaults substituting
only for nullish fields. -/
def loadWebpackResolve (env : FsEnv) (importCfg : String → Except Unit WConfig)
    (projectRoot : String) (webpackConfig : Option String) :
    List (String × String) × List String :=
  match webpackBase env projectRoot webpackConfig with
  | none => ([], WEBPACK_DEFAULT_EXTS)
  | some b =>
    if env.pathExists b = false then ([], WEBPACK_DEFAULT_EXTS)
    else
      match importCfg b with
      | .error _ => ([], WEBPACK_DEFAULT_EXTS)
      | .ok cfg =>
        let resolveF : Option WResolve :=
          match cfg with
          | .multi items => (items.find? (fun c => c.isSome)).join
          | .single r => r
        ((resolveF.bind (fun r => r.«alias»)).getD [],
          (resolveF.bind (fun r => r.extensions)).getD WEBPACK_DEFAULT_EXTS)

/-- C9 (amended): loadWebpackResolve never fails its caller, in every mode of
invocation (explicit override or convention-name discovery): with no
bundler-config file found, or a load failure of the chosen base config, it
returns the empty alias map and the default extension list; on a successful
load of the chosen base config it returns the config's resolve.alias and
resolve.extensions, substituting the defaults only for absent (nullish)
fields — an empty-but-present extensions list is returned as-is. -/
theorem C9_load_webpack_fallbacks (env : FsEnv) (importCfg : String → Except Unit WConfig)
    (projectRoot : String) :
    ((∀ c ∈ CANDIDATES, env.pathExists (env.joinPath projectRoot c) = false) →
      loadWebpackResolve env importCfg projectRoot none = ([], WEBPACK_DEFAULT_EXTS)) ∧
    (∀ wc, webpackBase env projectRoot wc = none →
      loadWebpackResolve env importCfg projectRoot wc = ([], WEBPACK_DEFAULT_EXTS)) ∧
    (∀ wc b, webpackBase env projectRoot wc = some b → env.pathExists b = false →
      loadWebpackResolve env importCfg projectRoot wc = ([], WEBPACK_DEFAULT_EXTS)) ∧
    (∀ wc b, webpackBase env projectRoot wc = some b → env.pathExists b = true →
      importCfg b = .error () →
      loadWebpackResolve env importCfg projectRoot wc = ([], WEBPACK_DEFAULT_EXTS)) ∧
    (∀ wc b r, webpackBase env projectRoot wc = some b → env.pathExists b = true →
      importCfg b = .ok (.single r) →
      loadWebpackResolve env importCfg projectRoot wc =
        ((r.bind (fun x => x.«alias»)).getD [],
          (r.bind (fun x => x.extensions)).getD WEBPACK_DEFAULT_EXTS)) ∧
    (∀ wc b items, webpackBase env projectRoot wc = some b → env.pathExists b = true →
      importCfg b = .ok (.multi items) →
      loadWebpackResolve env importCfg projectRoot wc =
        (((items.find? (fun c => c.isSome)).join.bind (fun x => x.«alias»)).getD [],
          ((items.find? (fun c => c.isSome)).join.bind
            (fun x => x.extensions)).getD WEBPACK_DEFAULT_EXTS)) := by
  refine ⟨?_, ?_, ?_, ?_, ?_, ?_⟩
  · intro hnone
    unfold loadWebpackResolve webpackBase
    rw [show (CANDIDATES.map (fun c => env.joinPath projectRoot c)).find?
        (fun p => env.pathExists p) = none from List.find?_eq_none.mpr ?_]
    intro p hp
    obtain ⟨c, hc, hceq⟩ := List.mem_map.mp hp
    rw [← hceq]
    simp [hnone c hc]
  · intro wc hb
    unfold loadWebpackResolve
    rw [hb]
  · intro wc b hb hne
    unfold loadWebpackResolve
    rw [hb]
    dsimp only
    rw [if_pos hne]
  · intro wc b hb hex himp
    unfold loadWebpackResolve
    rw [hb]
    dsimp only
    rw [if_neg (by rw [hex]; simp), himp]
  · intro wc b r hb hex himp
    unfold loadWebpackResolve
    rw [hb]
    dsimp only
    rw [if_neg (by rw [hex]; simp), himp]
  · intro wc b items hb hex himp
    unfold loadWebpackResolve
    rw [hb]
    dsimp only
    rw [if_neg (by rw [hex]; simp), himp]

/-- Witness for C9 at concrete environments covering the missing-file case,
a successful load of a convention-discovered candidate (no explicit
override), and a successful load of an explicit override. -/
theorem C9_load_webpack_fallbacks_witness :
    ((∀ c ∈ CANDIDATES, (fun (_ : String) => false) ((fun a b => a ++ "/" ++ b) "/r" c)
      = false) ∧
    loadWebpackResolve
      ⟨fun _ => false, fun _ => false, fun _ => false, fun a b => a ++ "/" ++ b,
        fun l => String.intercalate "/" l, fun _ => "", fun _ => "", fun _ _ => "",
        fun _ => false, '/'⟩
      (fun _ => .error ()) "/r" none = ([], WEBPACK_DEFAULT_EXTS)) ∧
    loadWebpackResolve
      ⟨fun _ => false, fun _ => false, fun _ => true, fun a b => a ++ "/" ++ b,
        fun l => String.intercalate "/" l, fun _ => "", fun _ => "", fun _ _ => "",
        fun _ => false, '/'⟩
      (fun _ => .ok (.single (some ⟨some [("comp", "lib")], none⟩))) "/r"
      none = ([("comp", "lib")], WEBPACK_DEFAULT_EXTS) ∧
    loadWebpackResolve
      ⟨fun _ => false, fun _ => false, fun _ => true, fun a b => a ++ "/" ++ b,
        fun l => String.intercalate "/" l, fun _ => "", fun _ => "", fun _ _ => "",
        fun _ => false, '/'⟩
      (fun _ => .ok (.single (some ⟨some [("comp", "lib")], none⟩))) "/r"
      (some "webpack.config.js") = ([("comp", "lib")], WEBPACK_DEFAULT_EXTS) := by
  refine ⟨⟨by decide, ?_⟩, ?_, ?_⟩
  · exact (C9_load_webpack_fallbacks _ _ "/r").1 (by decide)
  · exact (C9_load_webpack_fallbacks _ _ "/r").2.2.2.2.1 none
      ("/r" ++ "/" ++ "webpack.config.js")
      (some ⟨some [("comp", "lib")], none⟩) rfl rfl rfl
  · exact (C9_load_webpack_fallbacks _ _ "/r").2.2.2.2.1 (some "webpack.config.js")
      (String.intercalate "/" ["/r", "webpack.config.js"])
      (some ⟨some [("comp", "lib")], none⟩) rfl rfl rfl

/-- C9 counterexample: a successfully loaded config whose resolve.extensions
is an empty (but present) array is returned as the empty list, not replaced
by the default extension list, refuting the claim that defaults substitute
for any empty field. -/
theorem C9_counterexample :
    (loadWebpackResolve
      ⟨fun _ => false, fun _ => false, fun _ => true, fun a b => a ++ "/" ++ b,
        fun l => String.intercalate "/" l, fun _ => "", fun _ => "", fun _ _ => "",
        fun _ => false, '/'⟩
      (fun _ => .ok (.single (some ⟨none, some []⟩))) "/r"
      (some "webpack.config.js")).2 = [] ∧
    WEBPACK_DEFAULT_EXTS ≠ [] := by
  constructor
  · rfl
  · decide
